import Mathlib

/-!
Shallow embedding of the reflektor in-memory shared-library loader
(Linux ELF backend, façade, and the AP32 depacker of the darwin backend),
translated from the Go sources, together with proofs about the loader's
mapping, relocation, symbol-resolution, export-table, lifecycle,
validation, decompression and introspection behaviour.

Conventions used throughout:
* Go machine integers are modelled as Nat (unsigned) or Int (signed) with
  explicit reduction modulo 2^64 or 2^32 where the Go code can wrap.
* Byte buffers are List Nat (each element a byte value).
* Memory written through unsafe pointers is modelled either as a function
  from offsets to bytes (the ELF mapping) or as an explicit write action
  (relocations).
* Effectful leaves (dlsym, dlopen, the on-disk symbol search) are oracles:
  functions supplied as parameters, so theorems quantify over every
  possible behaviour of the host system.
* Symbol names and file paths are List Char (Go strings).
-/

namespace Reflektor

/-- Modulus of Go uint64 / uintptr arithmetic. -/
def U64 : Nat := 2 ^ 64

/-- Modulus of Go uint32 arithmetic. -/
def U32 : Nat := 2 ^ 32

/-- Reinterpret a uint64 bit pattern as the signed int64 value Go's
int64(v) conversion produces. -/
def toI64 (v : Nat) : Int :=
  if v % U64 < 2 ^ 63 then ((v % U64 : Nat) : Int) else ((v % U64 : Nat) : Int) - (U64 : Int)

/-- Reinterpret a uint32 bit pattern as the signed int32 value, widened to
int64 (Go's int64(int32(v))). -/
def toI32 (v : Nat) : Int :=
  if v % U32 < 2 ^ 31 then ((v % U32 : Nat) : Int) else ((v % U32 : Nat) : Int) - (U32 : Int)

/-- Wrap a mathematical integer into the int64 two's-complement range,
matching Go's wrapping int64 addition and subtraction. -/
def i64wrap (x : Int) : Int := (x + 2 ^ 63) % (U64 : Int) - 2 ^ 63

/-- Go uint64(x) for an int64 value x. -/
def u64ofI (x : Int) : Nat := (x % (U64 : Int)).toNat

/-- Go uint32(x) for an int64 value x (also the value of uint32(int32(x))). -/
def u32ofI (x : Int) : Nat := (x % (U32 : Int)).toNat

/-- Go "v &^ (a-1)" for uint64 v and a (alignDown64 in the source): bit-clear
with the complement taken inside 64 bits. The source guards a = 0. -/
def alignDown64 (v a : Nat) : Nat :=
  if a = 0 then v else v &&& ((a - 1) ^^^ (U64 - 1))

/-- Go "(v + (a-1)) &^ (a-1)" on uint64 (alignUp64 in the source); the
addition wraps modulo 2^64. -/
def alignUp64 (v a : Nat) : Nat :=
  if a = 0 then v else ((v + (a - 1)) % U64) &&& ((a - 1) ^^^ (U64 - 1))

/-- Structured rendering of the loader's error values (the Go code builds
them with fmt.Errorf; the constructors record the data each message
interpolates). -/
inductive LoadErr
  | msg (s : String)
  | foreignPlatform (provided expected : Nat)
  | unsupportedType (t : Nat)
  | unsupportedEndian (d : Nat)
  | unsupportedClass (c : Nat)
  | unsupportedArch (s : String)
  | unsupportedMachine (m : Nat)
  | unsupportedReloc (machine t : Nat)
  | relocOverflow32 (v : Int)
  | relocOverflow32S (v : Int)
  | relocOverflowPC32 (v : Int)
  | relocOutOfRange (offset : Nat)
  | invalidSymIndex (i : Nat)
  | undefinedUnnamed (i : Nat)
  | resolveExternal (name : List Char) (inner : LoadErr)
  | unresolvedExternal (name : List Char)
  | resolvedNil (name : List Char)
deriving DecidableEq

/-- Host architecture as reported by runtime.GOARCH on Linux. -/
inductive GoArch
  | i386
  | amd64
  | arm64
  | other (s : String)
deriving DecidableEq

/-- ELF machine constant expected for the current architecture
(currentELFMachine in the source). EM_386 = 3, EM_X86_64 = 62,
EM_AARCH64 = 183. -/
def currentELFMachine : GoArch → Except LoadErr Nat
  | .i386 => .ok 3
  | .amd64 => .ok 62
  | .arm64 => .ok 183
  | .other s => .error (.unsupportedArch s)

/-- The ELF identification fields validateELFHeaders inspects. -/
structure ElfHeader where
  machine : Nat
  etype : Nat
  edata : Nat
  eclass : Nat
deriving DecidableEq

/-- validateELFHeaders from the source: machine must equal the host's,
type must be ET_DYN (3), data must be ELFDATA2LSB (1), class must be
ELFCLASS32 (1) or ELFCLASS64 (2), checked in that order. -/
def validateELFHeaders (arch : GoArch) (h : ElfHeader) : Except LoadErr Unit :=
  match currentELFMachine arch with
  | .error e => .error e
  | .ok machine =>
    if h.machine ≠ machine then .error (.foreignPlatform h.machine machine)
    else if h.etype ≠ 3 then .error (.unsupportedType h.etype)
    else if h.edata ≠ 1 then .error (.unsupportedEndian h.edata)
    else if h.eclass ≠ 1 ∧ h.eclass ≠ 2 then .error (.unsupportedClass h.eclass)
    else .ok ()

/-- Go unicode.IsSpace restricted to the code points that actually occur in
the loader's inputs (the Latin-1 range of the Go predicate). -/
def goIsSpace (c : Char) : Bool :=
  c.toNat = 9 ∨ c.toNat = 10 ∨ c.toNat = 11 ∨ c.toNat = 12 ∨ c.toNat = 13 ∨
  c.toNat = 32 ∨ c.toNat = 0x85 ∨ c.toNat = 0xA0

/-- Go strings.TrimSpace on a rune list. -/
def goTrimSpace (l : List Char) : List Char :=
  ((l.dropWhile goIsSpace).reverse.dropWhile goIsSpace).reverse

/-- Errors surfaced by Library.CallExport and the module call path. -/
inductive CallErr
  | libraryClosed
  | emptyExportName
  | imageEmpty
  | symbolTableEmpty
  | symbolNotFound (name : List Char)
  | callFailed (name : List Char) (inner : CallErr)
deriving DecidableEq

/-- State of a memmod Module: the mapping length stands in for the mapped
byte slice (zero once unmapped), symbols is the exported-symbol table
(none once cleared). -/
structure ModuleState where
  mappingLen : Nat
  loadBias : Nat
  symbols : Option (List (List Char × Nat))
  closed : Bool
deriving DecidableEq

/-- Module.Free from the source. Returns the successor state plus whether a
munmap was performed during this call. -/
def ModuleFree (m : ModuleState) : ModuleState × Bool :=
  if m.closed then (m, false)
  else (⟨0, 0, Option.none, true⟩, decide (m.mappingLen ≠ 0))

/-- Module.ProcAddressByName from the source: trim, reject empty names,
then the closed / empty-mapping / nil-table checks, then the table lookup
(hits with address zero fall through to the not-found error). -/
def ProcAddressByName (m : ModuleState) (name : List Char) : Except CallErr Nat :=
  let name := goTrimSpace name
  if name = [] then .error .emptyExportName
  else if m.closed then .error .libraryClosed
  else if m.mappingLen = 0 then .error .imageEmpty
  else
    match m.symbols with
    | Option.none => .error .symbolTableEmpty
    | some table =>
      match table.lookup name with
      | some addr => if addr ≠ 0 then .ok addr else .error (.symbolNotFound name)
      | Option.none => .error (.symbolNotFound name)

/-- Candidate loop of Module.CallExport: try each name, stopping at the
first success; on total failure the last candidate's error is reported. -/
def tryCandidates (m : ModuleState) : List (List Char) → Except CallErr Nat
  | [] => .error .emptyExportName
  | [c] => ProcAddressByName m c
  | c :: cs =>
    match ProcAddressByName m c with
    | .ok a => .ok a
    | .error _ => tryCandidates m cs

/-- Module.CallExport from the source: trim, reject empty, then try the
name and its with/without leading-underscore variant; the call itself
(cCall0) returns no information, so success is modelled as the resolved
address. -/
def ModuleCallExport (m : ModuleState) (name : List Char) : Except CallErr Nat :=
  let name := goTrimSpace name
  if name = [] then .error .emptyExportName
  else
    let candidates :=
      match name with
      | '_' :: rest => [name, rest]
      | _ => [name, '_' :: name]
    match tryCandidates m candidates with
    | .ok a => .ok a
    | .error e => .error (.callFailed name e)

/-- State of a reflektor Library handle. -/
structure LibraryState where
  closed : Bool
  module : Option ModuleState
deriving DecidableEq

/-- Library.Close from the source. Returns the successor state, whether an
unmap happened during this call, and the returned error (always none). -/
def LibraryClose (l : LibraryState) : LibraryState × Bool × Option CallErr :=
  if l.closed then (l, false, Option.none)
  else
    match l.module with
    | Option.none => (⟨true, Option.none⟩, false, Option.none)
    | some m => (⟨true, Option.none⟩, (ModuleFree m).2, Option.none)

/-- Library.CallExport from the source: the closed / nil-module check runs
before the name is examined at all. -/
def LibraryCallExport (l : LibraryState) (name : List Char) : Except CallErr Nat :=
  if l.closed then .error .libraryClosed
  else
    match l.module with
    | Option.none => .error .libraryClosed
    | some m => ModuleCallExport m name

/-- Externally visible operations on a Library handle. -/
inductive LibOp
  | close
  | callExport (name : List Char)

/-- Run a sequence of operations against a Library, counting how many
munmap calls were performed. CallExport does not mutate the state. -/
def runLibOps : LibraryState → List LibOp → LibraryState × Nat
  | l, [] => (l, 0)
  | l, .callExport _ :: ops => runLibOps l ops
  | l, .close :: ops =>
    let (l', didUnmap, _) := LibraryClose l
    let (l'', n) := runLibOps l' ops
    (l'', (if didUnmap then 1 else 0) + n)

/-- The write a single relocation performs on the mapping (writeU32 /
writeU64 calls in the source), or no write at all. -/
inductive RelocWrite
  | skip
  | w32 (addr : Nat) (val : Nat)
  | w64 (addr : Nat) (val : Nat)
deriving DecidableEq

/-- applyX8664Reloc from the source. Relocation type constants of
debug/elf: NONE 0, 64 1, PC32 2, GLOB_DAT 6, JMP_SLOT 7, RELATIVE 8,
32 10, 32S 11, TPOFF64 18. Go's wrapping int64 sums reduce to the stated
values modulo 2^64 / 2^32; the three range checks inspect the wrapped
int64 value, as the source does. -/
def applyX8664Reloc (relocType : Nat) (place loadBias symValue : Nat) (addend : Int) :
    Except LoadErr RelocWrite :=
  if relocType = 0 then .ok .skip
  else if relocType = 8 then .ok (.w64 place (u64ofI (toI64 loadBias + addend)))
  else if relocType = 18 then .ok (.w64 place (u64ofI (toI64 symValue + addend)))
  else if relocType = 7 ∨ relocType = 6 ∨ relocType = 1 then
    .ok (.w64 place (u64ofI (toI64 symValue + addend)))
  else if relocType = 10 then
    let v := i64wrap (toI64 symValue + addend)
    if v < 0 ∨ v > 0xffffffff then .error (.relocOverflow32 v)
    else .ok (.w32 place (u32ofI v))
  else if relocType = 11 then
    let v := i64wrap (toI64 symValue + addend)
    if v < -0x80000000 ∨ v > 0x7fffffff then .error (.relocOverflow32S v)
    else .ok (.w32 place (u32ofI v))
  else if relocType = 2 then
    let v := i64wrap (toI64 symValue + addend - toI64 place)
    if v < -0x80000000 ∨ v > 0x7fffffff then .error (.relocOverflowPC32 v)
    else .ok (.w32 place (u32ofI v))
  else .error (.unsupportedReloc 62 relocType)

/-- apply386Reloc from the source. Type constants: NONE 0, 32 1, PC32 2,
GLOB_DAT 6, JMP_SLOT 7, RELATIVE 8, 32PLT 11, TLS_TPOFF 14. GLOB_DAT and
JMP_SLOT write uint32(symValue), ignoring the addend; 32 and 32PLT
truncate without a range check. -/
def apply386Reloc (relocType : Nat) (place loadBias symValue : Nat) (addend : Int) :
    Except LoadErr RelocWrite :=
  if relocType = 0 then .ok .skip
  else if relocType = 8 then .ok (.w32 place (u32ofI (toI64 loadBias + addend)))
  else if relocType = 14 then .ok (.w32 place (u32ofI (toI64 symValue + addend)))
  else if relocType = 7 ∨ relocType = 6 then .ok (.w32 place (symValue % U32))
  else if relocType = 1 ∨ relocType = 11 then .ok (.w32 place (u32ofI (toI64 symValue + addend)))
  else if relocType = 2 then
    let v := i64wrap (toI64 symValue + addend - toI64 place)
    if v < -0x80000000 ∨ v > 0x7fffffff then .error (.relocOverflowPC32 v)
    else .ok (.w32 place (u32ofI v))
  else .error (.unsupportedReloc 3 relocType)

/-- applyAArch64Reloc from the source. Type constants: NONE 0, ABS64 257,
GLOB_DAT 1025, JUMP_SLOT 1026, RELATIVE 1027, TLS_TPREL64 1030. -/
def applyAArch64Reloc (relocType : Nat) (place loadBias symValue : Nat) (addend : Int) :
    Except LoadErr RelocWrite :=
  if relocType = 0 then .ok .skip
  else if relocType = 1027 then .ok (.w64 place (u64ofI (toI64 loadBias + addend)))
  else if relocType = 1030 then .ok (.w64 place (u64ofI (toI64 symValue + addend)))
  else if relocType = 1026 ∨ relocType = 1025 ∨ relocType = 257 then
    .ok (.w64 place (u64ofI (toI64 symValue + addend)))
  else .error (.unsupportedReloc 183 relocType)

/-- readU32 from the source: little-endian load of four bytes at addr from
a byte-addressed memory. -/
def readU32 (mem : Nat → Nat) (addr : Nat) : Nat :=
  mem addr % 256 + (mem (addr + 1) % 256) * 256 + (mem (addr + 2) % 256) * 256 ^ 2 +
    (mem (addr + 3) % 256) * 256 ^ 3

/-- readU64 from the source: little-endian load of eight bytes. -/
def readU64 (mem : Nat → Nat) (addr : Nat) : Nat :=
  readU32 mem addr + readU32 mem (addr + 4) * 256 ^ 4

/-- mappedAddressInRange from the source, for a mapping at address
mapStart of mapLen bytes. The subtraction end - addr is Go uintptr
arithmetic, so it wraps modulo 2^64 (the size argument is the constant
word size 4 or 8, so the source's size < 0 branch cannot fire). -/
def mappedAddressInRange (mapStart mapLen addr size : Nat) : Bool :=
  if mapLen = 0 then false
  else if addr < mapStart then false
  else if ((mapStart + mapLen) % U64 + U64 - addr % U64) % U64 < size then false
  else true

/-- An entry of the dynamic symbol table as debug/elf presents it:
name, the info byte (binding in the high nibble, type in the low),
the section index (0 = SHN_UNDEF) and the value. -/
structure ElfSym where
  name : List Char
  info : Nat
  secIdx : Nat
  value : Nat
deriving DecidableEq

/-- dynSymbolByIndex from the source: debug/elf drops the null symbol at
dynsym index 0, so index i reads list position i - 1. -/
def dynSymbolByIndex (dynSyms : List ElfSym) (symIndex : Nat) : Option ElfSym :=
  if symIndex = 0 then Option.none
  else dynSyms.get? (symIndex - 1)

/-- Oracles describing the host process for the external-symbol resolver.
resolvedCache and missCache are the resolver's two caches as found at
entry; modulesLookup and dlsymLookup answer the runtime-module scan and
the dlsym call; the primed variants answer the retry performed after the
baseline dependencies are opened with dlopen. An oracle returns the
address if the underlying Go call returned a nil error, none otherwise. -/
structure ResolveEnv where
  resolvedCache : List Char → Option Nat
  missCache : List Char → Bool
  modulesLookup : List Char → Option Nat
  dlsymLookup : List Char → Option Nat
  apiAvailable : Bool
  dlopenAvailable : Bool
  modulesLookupPrimed : List Char → Option Nat
  dlsymLookupPrimed : List Char → Option Nat

/-- A lookup counts as a hit when it produced a nil error and a nonzero
address (the source's err == nil && addr != 0 test). -/
def oracleHit (o : Option Nat) : Bool :=
  match o with
  | some a => decide (a ≠ 0)
  | Option.none => false

/-- symbolResolver.Resolve from the source, for a single call: the caches
hold the state at entry (the source's cache insertions only matter for
later calls) and the priming pass is summarised by the primed oracles.
The recursion on the versionless base of a name containing an at sign
strictly shortens the name, so the fuel argument, seeded with the name
length plus one by ResolveTop, never reaches zero. -/
def Resolve (env : ResolveEnv) : Nat → List Char → Except LoadErr Nat
  | 0, name => .error (.unresolvedExternal name)
  | fuel + 1, name =>
    match env.resolvedCache name with
    | some a => .ok a
    | Option.none =>
      if env.missCache name then .error (.unresolvedExternal name)
      else if oracleHit (env.modulesLookup name) then .ok ((env.modulesLookup name).getD 0)
      else if env.apiAvailable && oracleHit (env.dlsymLookup name) then
        .ok ((env.dlsymLookup name).getD 0)
      else if env.apiAvailable && env.dlopenAvailable &&
          oracleHit (env.modulesLookupPrimed name) then
        .ok ((env.modulesLookupPrimed name).getD 0)
      else if env.apiAvailable && env.dlopenAvailable && oracleHit (env.dlsymLookupPrimed name) then
        .ok ((env.dlsymLookupPrimed name).getD 0)
      else
        let atIdx := name.indexOf '@'
        if 0 < atIdx ∧ atIdx < name.length then
          let base := name.take atIdx
          if base ≠ [] ∧ base ≠ name then
            match Resolve env fuel base with
            | .ok a => if a ≠ 0 then .ok a else .error (.unresolvedExternal name)
            | .error _ => .error (.unresolvedExternal name)
          else .error (.unresolvedExternal name)
        else .error (.unresolvedExternal name)

/-- Entry point of the resolver recursion. -/
def ResolveTop (env : ResolveEnv) (name : List Char) : Except LoadErr Nat :=
  Resolve env (name.length + 1) name

/-- resolveRelocationSymbol from the source. STB_WEAK = 2; the binding is
the high nibble of the info byte; section index 0 is SHN_UNDEF. -/
def resolveRelocationSymbol (symIndex : Nat) (dynSyms : List ElfSym) (loadBias : Nat)
    (env : ResolveEnv) : Except LoadErr Nat :=
  if symIndex = 0 then .ok 0
  else
    match dynSymbolByIndex dynSyms symIndex with
    | Option.none => .error (.invalidSymIndex symIndex)
    | some sym =>
      if sym.secIdx = 0 ∧ sym.info >>> 4 = 2 then .ok 0
      else if sym.secIdx ≠ 0 ∧ sym.value ≠ 0 then .ok ((loadBias + sym.value) % U64)
      else if sym.name = [] then .error (.undefinedUnnamed symIndex)
      else
        match ResolveTop env sym.name with
        | .error e => .error (.resolveExternal sym.name e)
        | .ok addr => if addr = 0 then .error (.resolvedNil sym.name) else .ok addr

/-- applyOneRelocation from the source. ELF classes: 1 = ELFCLASS32,
2 = ELFCLASS64. The place is uintptr addition, wrapping modulo 2^64;
mem is the byte content of the process at the time the entry is applied
(used for the REL implicit addend). -/
def applyOneRelocation (machine eclass : Nat) (mem : Nat → Nat) (mapStart mapLen : Nat)
    (loadBias : Nat) (dynSyms : List ElfSym) (env : ResolveEnv) (symIndex relocType : Nat)
    (offset : Nat) (addend : Int) (hasAddend : Bool) : Except LoadErr RelocWrite :=
  let place := (loadBias + offset) % U64
  let wordSize := if eclass = 1 then 4 else 8
  if ¬ mappedAddressInRange mapStart mapLen place wordSize then
    .error (.relocOutOfRange offset)
  else
    let addendRes : Except LoadErr Int :=
      if hasAddend then .ok addend
      else if eclass = 2 then .ok (toI64 (readU64 mem place))
      else if eclass = 1 then .ok (toI32 (readU32 mem place))
      else .error (.unsupportedClass eclass)
    match addendRes with
    | .error e => .error e
    | .ok a =>
      match (if symIndex ≠ 0 then resolveRelocationSymbol symIndex dynSyms loadBias env
             else .ok 0 : Except LoadErr Nat) with
      | .error e => .error e
      | .ok symValue =>
        if machine = 62 then applyX8664Reloc relocType place loadBias symValue a
        else if machine = 3 then apply386Reloc relocType place loadBias symValue a
        else if machine = 183 then applyAArch64Reloc relocType place loadBias symValue a
        else .error (.unsupportedMachine machine)

/-- Eligibility filter of addELFSymbols: nonempty name, nonzero value,
non-UNDEF section, binding GLOBAL (1) or WEAK (2), type NOTYPE (0) or
FUNC (2). -/
def exportEligible (sym : ElfSym) : Bool :=
  sym.name ≠ [] ∧ sym.value ≠ 0 ∧ sym.secIdx ≠ 0 ∧
  (sym.info >>> 4 = 1 ∨ sym.info >>> 4 = 2) ∧
  (sym.info &&& 0xf = 2 ∨ sym.info &&& 0xf = 0)

/-- Insertion into the exported-symbol table: a key already present keeps
its first-inserted address. The table is an association list looked up
front to back. -/
def exportInsert (dst : List (List Char × Nat)) (key : List Char) (addr : Nat) :
    List (List Char × Nat) :=
  if (dst.lookup key).isSome then dst else dst ++ [(key, addr)]

/-- addELFSymbols from the source: each eligible symbol registers its name
at loadBias + value (uintptr addition), and, when the name contains an at
sign at a positive index, also its versionless base. -/
def addELFSymbols (dst : List (List Char × Nat)) (symbols : List ElfSym) (loadBias : Nat) :
    List (List Char × Nat) :=
  match symbols with
  | [] => dst
  | sym :: rest =>
    if exportEligible sym then
      addELFSymbols
        (if 0 < sym.name.indexOf '@' ∧ sym.name.indexOf '@' < sym.name.length then
          exportInsert (exportInsert dst sym.name ((loadBias + sym.value) % U64))
            (sym.name.take (sym.name.indexOf '@')) ((loadBias + sym.value) % U64)
        else exportInsert dst sym.name ((loadBias + sym.value) % U64))
        rest loadBias
    else addELFSymbols dst rest loadBias

/-- buildExportedSymbolTable from the source: dynamic symbols are added
first, then static symbols; a table whose read failed contributes
nothing (the source ignores the error). -/
def buildExportedSymbolTable (dynSyms staticSyms : Option (List ElfSym)) (loadBias : Nat) :
    List (List Char × Nat) :=
  let t :=
    match dynSyms with
    | some s => addELFSymbols [] s loadBias
    | Option.none => []
  match staticSyms with
  | some s => addELFSymbols t s loadBias
  | Option.none => t

/-- Registration events of a symbol list in insertion order, written from
the specification's description of the table: every eligible symbol
contributes its name, then (when versioned) its base name, each mapping
to loadBias + value; the first event for a key wins. -/
def exportEvents (symbols : List ElfSym) (loadBias : Nat) : List (List Char × Nat) :=
  match symbols with
  | [] => []
  | sym :: rest =>
    (if exportEligible sym then
      (sym.name, (loadBias + sym.value) % U64) ::
        (if 0 < sym.name.indexOf '@' ∧ sym.name.indexOf '@' < sym.name.length then
          [(sym.name.take (sym.name.indexOf '@'), (loadBias + sym.value) % U64)]
        else [])
    else []) ++ exportEvents rest loadBias

/-- A program header as debug/elf presents it. PT_LOAD is type 1. -/
structure GoProg where
  ptype : Nat
  flags : Nat
  off : Nat
  vaddr : Nat
  filesz : Nat
  memsz : Nat
deriving DecidableEq

/-- The segments mapELFImage keeps: PT_LOAD with nonzero memsz, in program
header order. -/
def loadSegs (progs : List GoProg) : List GoProg :=
  progs.filter fun p => p.ptype == 1 && p.memsz != 0

/-- First loop of mapELFImage: walk the program headers accumulating the
aligned minimum and maximum addresses (seeded with the all-ones sentinel
and zero) and the kept segments, failing on an empty aligned range. -/
def scanLoads (page : Nat) : List GoProg → Nat → Nat → List GoProg →
    Except LoadErr (Nat × Nat × List GoProg)
  | [], minV, maxV, acc => .ok (minV, maxV, acc.reverse)
  | p :: rest, minV, maxV, acc =>
    if p.ptype ≠ 1 ∨ p.memsz = 0 then scanLoads page rest minV maxV acc
    else
      let segStart := alignDown64 p.vaddr page
      let segEnd := alignUp64 ((p.vaddr + p.memsz) % U64) page
      if segEnd ≤ segStart then .error (.msg "invalid PT_LOAD range")
      else
        scanLoads page rest (if segStart < minV then segStart else minV)
          (if maxV < segEnd then segEnd else maxV) (p :: acc)

/-- Overwrite of the bytes of the mapping: indices start..start+len-1 now
read from the copied list, everything else from the previous content. -/
def writeBytes (f : Nat → Nat) (start : Nat) (bytes : List Nat) : Nat → Nat :=
  fun i => if start ≤ i ∧ i < start + bytes.length then bytes.getD (i - start) 0 else f i

/-- Second loop of mapELFImage: copy filesz bytes of each kept segment
from the file buffer to offset vaddr - minV of the mapping (the absolute
target is loadBias + vaddr), after the source-range bounds check and the
u64ToInt check against the maximum int (2^63 - 1 on 64-bit Linux). -/
def copySegs (raw : List Nat) (minV : Nat) : List GoProg → (Nat → Nat) →
    Except LoadErr (Nat → Nat)
  | [], f => .ok f
  | p :: rest, f =>
    if p.filesz = 0 then copySegs raw minV rest f
    else if p.off > raw.length ∨ p.filesz > raw.length - p.off then
      .error (.msg "segment file range out of bounds")
    else if 2 ^ 63 - 1 < p.filesz then .error (.msg "value does not fit in int")
    else copySegs raw minV rest (writeBytes f (p.vaddr - minV) ((raw.drop p.off).take p.filesz))

/-- Result of mapELFImage: the aligned bounds, the mapping length, the
mapping content indexed by offset from the mapping base (offset x - minVAddr
holds the byte at absolute address loadBias + x), and the kept segments. -/
structure MappedELF where
  minVAddr : Nat
  maxVAddr : Nat
  mapLen : Nat
  content : Nat → Nat
  progs : List GoProg

/-- mapELFImage from the source. The anonymous mapping starts all-zero;
the mmap call itself is assumed to succeed (its failure is an environment
error, not a property of the input). -/
def mapELFImage (raw : List Nat) (progs : List GoProg) (page : Nat) :
    Except LoadErr MappedELF :=
  if page = 0 then .error (.msg "invalid page size")
  else
    match scanLoads page progs (U64 - 1) 0 [] with
    | .error e => .error e
    | .ok (minV, maxV, segs) =>
      if segs.length = 0 ∨ minV = U64 - 1 ∨ maxV ≤ minV then
        .error (.msg "ELF image has no loadable segments")
      else
        let mapSize := maxV - minV
        if mapSize = 0 then .error (.msg "ELF image mapping size is zero")
        else if 2 ^ 63 - 1 < mapSize then .error (.msg "value does not fit in int")
        else
          match copySegs raw minV segs (fun _ => 0) with
          | .error e => .error e
          | .ok f => .ok ⟨minV, maxV, mapSize, f, segs⟩

/-- Byte of the mapping at absolute address loadBias + x, where
loadBias = mappingBase - minVAddr: offset x - minVAddr from the base. -/
def byteAtBiasPlus (m : MappedELF) (x : Nat) : Nat :=
  m.content (x - m.minVAddr)

/-- Outcome of a fragment of Go code: a normal value, the early
(0, false) failure return of the depacker, a slice-bounds panic, or
exhaustion of the fuel that drives the loop translations (proved
unreachable for the seeds used). -/
inductive GoRes (α : Type)
  | ok (a : α)
  | failed
  | panicked
  | nofuel
deriving DecidableEq

/-- Sequencing of GoRes computations: failure, panic and fuel exhaustion
propagate. -/
def GoRes.bind {α β : Type} : GoRes α → (α → GoRes β) → GoRes β
  | .ok a, f => f a
  | .failed, _ => .failed
  | .panicked, _ => .panicked
  | .nofuel, _ => .nofuel

instance : Monad GoRes where
  pure := GoRes.ok
  bind := GoRes.bind

/-- Cursor state of apDepackSafe: positions into source and destination,
the current tag byte and remaining bit count, and the destination
contents. -/
structure Apds where
  srcPos : Nat
  dstPos : Nat
  tag : Nat
  bitcount : Nat
  dst : List Nat
deriving DecidableEq

/-- Read of source[i]; Go panics when the index is out of range. -/
def readSrc (src : List Nat) (i : Nat) : GoRes Nat :=
  if i < src.length then .ok (src.getD i 0) else .panicked

/-- Write of destination[i]; Go panics when the index is out of range. -/
def writeDst (st : Apds) (i v : Nat) : GoRes Apds :=
  if i < st.dst.length then .ok { st with dst := st.dst.set i v } else .panicked

/-- Read of destination[dstPos - offs]; Go computes the index as a
possibly negative int and panics when it is negative or out of range. -/
def readDstBack (st : Apds) (offs : Nat) : GoRes Nat :=
  if offs ≤ st.dstPos ∧ st.dstPos - offs < st.dst.length then
    .ok (st.dst.getD (st.dstPos - offs) 0)
  else .panicked

/-- Tag-consuming step shared by both branches of getbit: decrement the
bit count, extract bit 7 of the tag, shift the tag left inside uint32. -/
def getbitFrom (st : Apds) : Nat × Apds :=
  ((st.tag >>> 7) &&& 1, { st with bitcount := st.bitcount - 1, tag := (st.tag <<< 1) % U32 })

/-- getbit from the source: reload the tag byte when the bit count is
exhausted (failing on a truncated source), then emit the top bit. -/
def getbit (src : List Nat) (st : Apds) : GoRes (Nat × Apds) :=
  if st.bitcount = 0 then
    if st.srcPos < src.length then
      .ok (getbitFrom { st with tag := src.getD st.srcPos 0, srcPos := st.srcPos + 1, bitcount := 8 })
    else .failed
  else .ok (getbitFrom st)

/-- Bits of the encoding stream still available from the cursor. -/
def bitsRem (src : List Nat) (st : Apds) : Nat :=
  8 * (src.length - st.srcPos) + st.bitcount

/-- Loop body of getgamma from the source, with an explicit fuel bound on
the iteration count: read a bit, reject accumulators about to overflow
bit 31, shift it in, read the continuation bit. Each iteration consumes
two bits, so fuel seeded above bitsRem never runs out. -/
def getgammaAux (src : List Nat) : Nat → Nat → Apds → GoRes (Nat × Apds)
  | 0, _, _ => .nofuel
  | fuel + 1, v, st => do
    let (bit, st1) ← getbit src st
    if v &&& 0x80000000 ≠ 0 then .failed
    else do
      let (bit2, st2) ← getbit src st1
      if bit2 = 0 then .ok ((v <<< 1) + bit, st2)
      else getgammaAux src fuel ((v <<< 1) + bit) st2

/-- getgamma from the source (accumulator seeded with 1). -/
def getgamma (src : List Nat) (st : Apds) : GoRes (Nat × Apds) :=
  getgammaAux src (bitsRem src st + 1) 1 st

/-- Fixed-width bit accumulator (the four-bit offset loop of the source). -/
def readBitsAcc (src : List Nat) : Nat → Nat → Apds → GoRes (Nat × Apds)
  | 0, acc, st => .ok (acc, st)
  | n + 1, acc, st => do
    let (bit, st) ← getbit src st
    readBitsAcc src n ((acc <<< 1) + bit) st

/-- Backward-reference copy loop of the source: length bytes, each read
at dstPos - offs and written at dstPos. The surrounding guards ensure the
accesses stay in bounds; the model still checks every access. -/
def copyFromBack (offs : Nat) : Nat → Apds → GoRes Apds
  | 0, st => .ok st
  | len + 1, st => do
    let v ← readDstBack st offs
    let st ← writeDst st st.dstPos v
    copyFromBack offs len { st with dstPos := st.dstPos + 1 }

/-- offs - 3 (when LWM is zero) or offs - 2 in the uint32 arithmetic of
the source; the gamma decoder only produces values of at least 2, so the
subtraction never wraps on reachable paths, but the model keeps the wrap. -/
def gammaSub (LWM offs : Nat) : Nat :=
  (offs + U32 - (if LWM = 0 then 3 else 2)) % U32

/-- The three conditional length increments after the gamma-coded match
length, in uint32 arithmetic (the successive increments compose into a
single wrapped sum). -/
def lenAdjust (offs len2 : Nat) : Nat :=
  (len2 + (if 32000 ≤ offs then 1 else 0) + (if 1280 ≤ offs then 1 else 0) +
    (if offs < 128 then 2 else 0)) % U32

/-- Main decode loop of apDepackSafe, translated branch for branch from
the source; R0 and LWM are the carried match state. Each iteration
consumes at least one bit of the stream, so fuel seeded above bitsRem
never runs out. Exiting the loop (the done flag of the source, set when a
short match has offset zero) yields the final cursor. -/
def apLoop (src : List Nat) : Nat → Nat → Nat → Apds → GoRes Apds
  | 0, _, _, _ => .nofuel
  | fuel + 1, R0, LWM, st => do
    let (bit, st) ← getbit src st
    if bit = 1 then do
      let (bit2, st) ← getbit src st
      if bit2 = 1 then do
        let (bit3, st) ← getbit src st
        if bit3 = 1 then do
          let (offs, st) ← readBitsAcc src 4 0 st
          if offs ≠ 0 then
            if st.dstPos < offs ∨ st.dst.length ≤ st.dstPos then .failed
            else do
              let v ← readDstBack st offs
              let st ← writeDst st st.dstPos v
              apLoop src fuel R0 0 { st with dstPos := st.dstPos + 1 }
          else
            if st.dst.length ≤ st.dstPos then .failed
            else do
              let st ← writeDst st st.dstPos 0
              apLoop src fuel R0 0 { st with dstPos := st.dstPos + 1 }
        else
          if src.length ≤ st.srcPos then .failed
          else do
            let b ← readSrc src st.srcPos
            if b >>> 1 ≠ 0 then
              if st.dstPos < b >>> 1 ∨ st.dst.length - st.dstPos < 2 + (b &&& 1) then
                .failed
              else do
                let st2 ← copyFromBack (b >>> 1) (2 + (b &&& 1))
                  { st with srcPos := st.srcPos + 1 }
                apLoop src fuel (b >>> 1) 1 st2
            else .ok { st with srcPos := st.srcPos + 1 }
      else do
        let (offs, st1) ← getgamma src st
        if LWM = 0 ∧ offs = 2 then do
          let (len2, st2) ← getgamma src st1
          if st2.dstPos < R0 ∨ st2.dst.length - st2.dstPos < len2 then .failed
          else do
            let st3 ← copyFromBack R0 len2 st2
            apLoop src fuel R0 1 st3
        else
          if 0x00fffffe < gammaSub LWM offs then .failed
          else if src.length ≤ st1.srcPos then .failed
          else do
            let b ← readSrc src st1.srcPos
            let (len2, st2) ← getgamma src { st1 with srcPos := st1.srcPos + 1 }
            if st2.dstPos < (gammaSub LWM offs <<< 8) + b ∨
                st2.dst.length - st2.dstPos <
                  lenAdjust ((gammaSub LWM offs <<< 8) + b) len2 then .failed
            else do
              let st3 ← copyFromBack ((gammaSub LWM offs <<< 8) + b)
                (lenAdjust ((gammaSub LWM offs <<< 8) + b) len2) st2
              apLoop src fuel ((gammaSub LWM offs <<< 8) + b) 1 st3
    else
      if src.length ≤ st.srcPos ∨ st.dst.length ≤ st.dstPos then .failed
      else do
        let v ← readSrc src st.srcPos
        let st2 ← writeDst { st with srcPos := st.srcPos + 1 } st.dstPos v
        apLoop src fuel R0 0 { st2 with dstPos := st2.dstPos + 1 }

/-- apDepackSafe up to the wrapper that turns outcomes into Go return
values: empty-input checks, the first literal byte, then the main loop
seeded with R0 = MaxUint32 and LWM = 0. -/
def apDepackRun (src dst : List Nat) : GoRes (Nat × Bool × List Nat) :=
  if src.length = 0 ∨ dst.length = 0 then .ok (0, false, dst)
  else if src.length ≤ 0 ∨ dst.length ≤ 0 then .ok (0, false, dst)
  else
    match (do
      let v ← readSrc src 0
      let st1 ← writeDst ⟨0, 0, 0, 0, dst⟩ 0 v
      apLoop src (8 * src.length + 1) 0xffffffff 0
        { st1 with srcPos := 1, dstPos := 1 } : GoRes Apds) with
    | .ok st => .ok (st.dstPos, true, st.dst)
    | .failed => .ok (0, false, dst)
    | .panicked => .panicked
    | .nofuel => .nofuel

/-- apDepackSafe from the source: its two Go results plus the final
destination contents. The fallback arm is proved unreachable (apDepackRun
never panics nor exhausts its fuel). -/
def apDepackSafe (src dst : List Nat) : Nat × Bool × List Nat :=
  match apDepackRun src dst with
  | .ok r => r
  | _ => (0, false, dst)

/-- Little-endian uint32 load from a byte buffer
(binary.LittleEndian.Uint32 of data[i:i+4]). -/
def readLE32 (data : List Nat) (i : Nat) : Nat :=
  data.getD i 0 % 256 + (data.getD (i + 1) 0 % 256) * 256 +
    (data.getD (i + 2) 0 % 256) * 256 ^ 2 + (data.getD (i + 3) 0 % 256) * 256 ^ 3

/-- Result of maybeDepackAP32: the input passed through untagged, a
header-validation failure (Go status 14), a decode failure (status 15), a
successful depack, or the slice-bounds panic the Go expression
data[headerSize : headerSize+packedSize] raises when the uint32 sum wraps
below headerSize. -/
inductive AP32Result
  | passthrough
  | headerErr
  | decodeErr
  | depacked (out : List Nat)
  | panicked
deriving DecidableEq

/-- maybeDepackAP32 from the source. The AP32 tag is 0x32335041; buffers
shorter than 24 bytes are passed through before the tag is even read; the
header arithmetic is uint32. -/
def maybeDepackAP32 (data : List Nat) : AP32Result :=
  if data.length < 24 then .passthrough
  else if readLE32 data 0 ≠ 0x32335041 then .passthrough
  else
    let headerSize := readLE32 data 4
    let packedSize := readLE32 data 8
    let origSize := readLE32 data 16
    if headerSize < 24 ∨ data.length < headerSize then .headerErr
    else if packedSize = 0 ∨ data.length < (headerSize + packedSize) % U32 then .headerErr
    else if origSize = 0 then .headerErr
    else if (headerSize + packedSize) % U32 < headerSize then .panicked
    else
      let packed := (data.drop headerSize).take packedSize
      let out := List.replicate origSize 0
      match apDepackSafe packed out with
      | (outLen, true, res) => if outLen = origSize then .depacked res else .decodeErr
      | (_, false, _) => .decodeErr

/-- Accumulating splitter behind goFields. -/
def goFieldsAux : List Char → List Char → List (List Char)
  | [], cur => if cur = [] then [] else [cur.reverse]
  | c :: rest, cur =>
    if goIsSpace c then
      if cur = [] then goFieldsAux rest [] else cur.reverse :: goFieldsAux rest []
    else goFieldsAux rest (c :: cur)

/-- Go strings.Fields: maximal runs of non-space characters. -/
def goFields (l : List Char) : List (List Char) :=
  goFieldsAux l []

/-- Split into lines at newline characters (Go strings.Split with
separator newline), keeping empty pieces. -/
def splitLinesAux : List Char → List Char → List (List Char)
  | [], cur => [cur.reverse]
  | c :: rest, cur =>
    if c = '\n' then cur.reverse :: splitLinesAux rest []
    else splitLinesAux rest (c :: cur)

/-- Lines of the maps text. -/
def splitLines (l : List Char) : List (List Char) :=
  splitLinesAux l []

/-- Go strings.SplitN(s, sep, 2) for a one-character separator: at most
two pieces, split at the first occurrence. -/
def splitN2 (sep : Char) (l : List Char) : List (List Char) :=
  if l.contains sep then
    [l.takeWhile (· ≠ sep), (l.dropWhile (· ≠ sep)).tail]
  else [l]

/-- One hexadecimal digit of parseHexUintptr. -/
def hexDigit (c : Char) : Option Nat :=
  if '0' ≤ c ∧ c ≤ '9' then some (c.toNat - '0'.toNat)
  else if 'a' ≤ c ∧ c ≤ 'f' then some (c.toNat - 'a'.toNat + 10)
  else if 'A' ≤ c ∧ c ≤ 'F' then some (c.toNat - 'A'.toNat + 10)
  else Option.none

/-- parseHexUintptr from the source: shift in one nibble per rune with
uintptr (64-bit) wrap, failing on any non-hex rune. -/
def parseHexUintptr : List Char → Nat → Option Nat
  | [], out => some out
  | c :: rest, out =>
    match hexDigit c with
    | some d => parseHexUintptr rest ((out <<< 4 % U64 + d) % U64)
    | Option.none => Option.none

/-- The fields of one parsed maps line the loader keeps. -/
structure ProcMapEntry where
  start : Nat
  offset : Nat
  perms : List Char
  path : List Char
deriving DecidableEq

/-- Go strings.TrimSuffix of the literal " (deleted)". -/
def trimDeleted (l : List Char) : List Char :=
  let suf := [' ', '(', 'd', 'e', 'l', 'e', 't', 'e', 'd', ')']
  if suf.isSuffixOf l then l.take (l.length - suf.length) else l

/-- Parse one line of /proc/self/maps as readProcMaps does: trim, skip
empties, need at least five fields, keep only executable mappings (the
permission field contains an x), parse start from the address range and
the file offset, rebuild the path from the sixth field onward (dropping a
deleted marker), and keep only absolute paths. -/
def parseMapsLine (line : List Char) : Option ProcMapEntry :=
  let line := goTrimSpace line
  if line = [] then Option.none
  else
    let fields := goFields line
    if fields.length < 5 then Option.none
    else if ¬ (fields.getD 1 []).contains 'x' then Option.none
    else
      let rangeParts := splitN2 '-' (fields.getD 0 [])
      if rangeParts.length ≠ 2 then Option.none
      else
        match parseHexUintptr (rangeParts.getD 0 []) 0, parseHexUintptr (fields.getD 2 []) 0 with
        | some start, some offset =>
          let path :=
            if 6 ≤ fields.length then trimDeleted (List.intercalate [' '] (fields.drop 5))
            else []
          if path = [] ∨ path.head? ≠ some '/' then Option.none
          else some ⟨start, offset, fields.getD 1 [], path⟩
        | _, _ => Option.none

/-- readProcMaps from the source, as a function of the text of
/proc/self/maps. -/
def readProcMaps (raw : List Char) : List ProcMapEntry :=
  (splitLines raw).filterMap parseMapsLine

/-- Go strings.ToLower restricted to ASCII (the path alphabet of maps). -/
def goToLower (l : List Char) : List Char :=
  l.map fun c => if 'A' ≤ c ∧ c ≤ 'Z' then Char.ofNat (c.toNat + 32) else c

/-- Go strings.Contains: the needle occurs as a contiguous run of the
haystack. -/
def containsSeq (needle : List Char) : List Char → Bool
  | [] => needle.isEmpty
  | c :: rest => needle.isPrefixOf (c :: rest) || containsSeq needle rest

/-- libcPathScore from the source. -/
def libcPathScore (path : List Char) : Int :=
  let p := goToLower path
  if containsSeq ['l','i','b','c','.','s','o'] p then 100
  else if containsSeq ['l','i','b','c','-'] p then 95
  else if containsSeq ['l','d','-','m','u','s','l'] p then 90
  else if containsSeq ['m','u','s','l'] p then 85
  else if containsSeq ['l','d','-','l','i','n','u','x'] p then 80
  else -1

/-- A runtime module record. -/
structure RuntimeModule where
  path : List Char
  base : Nat
  score : Int
deriving DecidableEq

/-- Per-path accumulation of runtimeModules: keep, for each path, the
smallest start - offset seen so far. -/
def updateByPath (acc : List (List Char × Nat)) (path : List Char) (base : Nat) :
    List (List Char × Nat) :=
  match acc.lookup path with
  | Option.none => acc ++ [(path, base)]
  | some cur =>
    if base < cur then acc.map fun kv => if kv.1 == path then (kv.1, base) else kv
    else acc

/-- Entry filter and fold of runtimeModules: drop non-absolute or empty
paths and entries with start below offset, then accumulate the minimum
base per path. -/
def byPathFold : List ProcMapEntry → List (List Char × Nat) → List (List Char × Nat)
  | [], acc => acc
  | e :: rest, acc =>
    if e.path = [] ∨ e.path.head? ≠ some '/' then byPathFold rest acc
    else if e.start < e.offset then byPathFold rest acc
    else byPathFold rest (updateByPath acc e.path (e.start - e.offset))

/-- Byte-wise (here code-point-wise) string comparison, Go's operator
less-than on strings over the ASCII path alphabet. -/
def pathLt : List Char → List Char → Bool
  | [], [] => false
  | [], _ :: _ => true
  | _ :: _, [] => false
  | a :: as, b :: bs =>
    if a.toNat < b.toNat then true
    else if b.toNat < a.toNat then false
    else pathLt as bs

/-- The sort.Slice comparator of runtimeModules: score descending, then
path ascending. -/
def moduleLess (a b : RuntimeModule) : Bool :=
  if a.score ≠ b.score then decide (b.score < a.score) else pathLt a.path b.path

/-- Insert into a list sorted by moduleLess. -/
def moduleInsert (x : RuntimeModule) : List RuntimeModule → List RuntimeModule
  | [] => [x]
  | y :: ys => if moduleLess x y then x :: y :: ys else y :: moduleInsert x ys

/-- Sort by moduleLess (sort.Slice with a total strict comparator on the
distinct-path records is order-equivalent to insertion sort). -/
def moduleSort : List RuntimeModule → List RuntimeModule
  | [] => []
  | x :: xs => moduleInsert x (moduleSort xs)

/-- runtimeModules from the source, as a function of the maps text. -/
def runtimeModules (raw : List Char) : List RuntimeModule :=
  let byPath := byPathFold (readProcMaps raw) []
  moduleSort (byPath.map fun kv => ⟨kv.1, kv.2, libcPathScore kv.1⟩)

/-! Theorems. -/

/-- C6: when the host machine constant is m, an ELF whose machine field
differs fails validation with the foreign-platform error naming the
provided and the expected machine; with the right machine, a type other
than ET_DYN fails with the unsupported-type (malformed image) error; and
any header passing validation has type ET_DYN and the host's machine. -/
theorem validateELFHeaders_spec (arch : GoArch) (hdr : ElfHeader) (m : Nat)
    (hm : currentELFMachine arch = .ok m) :
    (hdr.machine ≠ m →
      validateELFHeaders arch hdr = .error (.foreignPlatform hdr.machine m)) ∧
    (hdr.machine = m → hdr.etype ≠ 3 →
      validateELFHeaders arch hdr = .error (.unsupportedType hdr.etype)) ∧
    (validateELFHeaders arch hdr = .ok () → hdr.etype = 3 ∧ hdr.machine = m) := by
  unfold validateELFHeaders
  rw [hm]
  refine ⟨fun h => by simp [h], fun h1 h2 => by simp [h1, h2], fun h => ?_⟩
  by_cases h1 : hdr.machine ≠ m
  · simp [h1] at h
  · push_neg at h1
    by_cases h2 : hdr.etype ≠ 3
    · simp [h1, h2] at h
    · push_neg at h2
      exact ⟨h2, h1⟩

/-- Witness for validateELFHeaders_spec: an x86_64 shared object handed
to an arm64 host is rejected as a foreign platform. -/
theorem validateELFHeaders_spec_witness :
    validateELFHeaders .arm64 ⟨62, 3, 1, 2⟩ = .error (.foreignPlatform 62 183) :=
  (validateELFHeaders_spec .arm64 ⟨62, 3, 1, 2⟩ 183 rfl).1 (by decide)

/-- Closing a library always leaves it closed. -/
theorem LibraryClose_closed (l : LibraryState) : (LibraryClose l).1.closed = true := by
  unfold LibraryClose
  by_cases h : l.closed
  · simp [h]
  · cases hm : l.module <;> simp [h, hm]

/-- Operations on a closed library perform no unmapping. -/
theorem runLibOps_closed (ops : List LibOp) :
    ∀ l : LibraryState, l.closed = true → (runLibOps l ops).2 = 0 := by
  induction ops with
  | nil => intro l _; rfl
  | cons op rest ih =>
    intro l hl
    cases op with
    | callExport name => exact ih l hl
    | close =>
      have hc : LibraryClose l = (l, false, Option.none) := by
        unfold LibraryClose; simp [hl]
      simp only [runLibOps, hc]
      simpa using ih l hl

/-- No operation sequence performs more than one unmap. -/
theorem runLibOps_le_one (ops : List LibOp) :
    ∀ l : LibraryState, (runLibOps l ops).2 ≤ 1 := by
  induction ops with
  | nil => intro l; simp [runLibOps]
  | cons op rest ih =>
    intro l
    cases op with
    | callExport n => exact ih l
    | close =>
      simp only [runLibOps]
      have h0 := runLibOps_closed rest (LibraryClose l).1 (LibraryClose_closed l)
      rw [h0]
      split <;> omega

/-- C5: after free has run, the library is permanently closed: a second
free returns success (a nil error) without unmapping and without changing
the state, every call_export (any name, empty and whitespace included)
fails with the library-closed error, and no operation sequence whatsoever
performs more than one unmap over the library's lifetime. -/
theorem libraryClosed_spec (l : LibraryState) (name : List Char) (ops : List LibOp) :
    ((LibraryClose (LibraryClose l).1).2.1 = false ∧
     (LibraryClose (LibraryClose l).1).2.2 = Option.none ∧
     (LibraryClose (LibraryClose l).1).1 = (LibraryClose l).1) ∧
    (LibraryCallExport (LibraryClose l).1 name = .error .libraryClosed) ∧
    (runLibOps l ops).2 ≤ 1 := by
  have hclosed := LibraryClose_closed l
  have hgen : ∀ l' : LibraryState, l'.closed = true →
      LibraryClose l' = (l', false, Option.none) ∧
      LibraryCallExport l' name = .error .libraryClosed := by
    intro l' h'
    constructor
    · unfold LibraryClose; simp [h']
    · unfold LibraryCallExport; simp [h']
  obtain ⟨hc, hce⟩ := hgen (LibraryClose l).1 hclosed
  exact ⟨⟨by rw [hc], by rw [hc], by rw [hc]⟩, hce, runLibOps_le_one ops l⟩

/-- C2 counterexample: relocation type 18 (R_X86_64_TPOFF64) is not one of
the types the claim lists, so the claim predicts an unsupported-type
failure; the code instead applies it successfully, writing S + A. -/
theorem applyX8664Reloc_tpoff64_cx :
    applyX8664Reloc 18 0 0 5 3 = .ok (.w64 0 8) ∧
    ∀ e : LoadErr, applyX8664Reloc 18 0 0 5 3 ≠ .error e := by
  have h : applyX8664Reloc 18 0 0 5 3 = .ok (.w64 0 8) := by rfl
  exact ⟨h, fun e he => by rw [h] at he; cases he⟩

/-- C2 (amended): the x86_64 relocation rules as the code implements them.
With place, load bias, resolved symbol value S and addend A: NONE writes
nothing; RELATIVE writes the 64-bit word load_bias + A; 64, GLOB_DAT,
JUMP_SLOT and also TPOFF64 write the 64-bit word S + A; 32 writes the
32-bit word S + A and fails when the wrapped int64 value lies outside
[0, 2^32); 32S likewise for [-2^31, 2^31); PC32 writes S + A - place with
the same signed check; every other type fails as unsupported. For a REL
entry (no explicit addend, 64-bit class) the addend is read as the int64
word at the place. -/
theorem applyX8664Reloc_spec (place bias sym : Nat) (A : Int) (t : Nat) (mem : Nat → Nat)
    (mapStart mapLen : Nat) (dynSyms : List ElfSym) (env : ResolveEnv) (symIndex offset : Nat) :
    (applyX8664Reloc 0 place bias sym A = .ok .skip) ∧
    (applyX8664Reloc 8 place bias sym A = .ok (.w64 place (u64ofI (toI64 bias + A)))) ∧
    (applyX8664Reloc 1 place bias sym A = .ok (.w64 place (u64ofI (toI64 sym + A))) ∧
     applyX8664Reloc 6 place bias sym A = .ok (.w64 place (u64ofI (toI64 sym + A))) ∧
     applyX8664Reloc 7 place bias sym A = .ok (.w64 place (u64ofI (toI64 sym + A))) ∧
     applyX8664Reloc 18 place bias sym A = .ok (.w64 place (u64ofI (toI64 sym + A)))) ∧
    (0 ≤ i64wrap (toI64 sym + A) ∧ i64wrap (toI64 sym + A) < 2 ^ 32 →
      applyX8664Reloc 10 place bias sym A =
        .ok (.w32 place (i64wrap (toI64 sym + A)).toNat)) ∧
    (¬ (0 ≤ i64wrap (toI64 sym + A) ∧ i64wrap (toI64 sym + A) < 2 ^ 32) →
      applyX8664Reloc 10 place bias sym A =
        .error (.relocOverflow32 (i64wrap (toI64 sym + A)))) ∧
    (-(2 ^ 31) ≤ i64wrap (toI64 sym + A) ∧ i64wrap (toI64 sym + A) < 2 ^ 31 →
      applyX8664Reloc 11 place bias sym A =
        .ok (.w32 place (u32ofI (i64wrap (toI64 sym + A))))) ∧
    (¬ (-(2 ^ 31) ≤ i64wrap (toI64 sym + A) ∧ i64wrap (toI64 sym + A) < 2 ^ 31) →
      applyX8664Reloc 11 place bias sym A =
        .error (.relocOverflow32S (i64wrap (toI64 sym + A)))) ∧
    (-(2 ^ 31) ≤ i64wrap (toI64 sym + A - toI64 place) ∧
        i64wrap (toI64 sym + A - toI64 place) < 2 ^ 31 →
      applyX8664Reloc 2 place bias sym A =
        .ok (.w32 place (u32ofI (i64wrap (toI64 sym + A - toI64 place))))) ∧
    (¬ (-(2 ^ 31) ≤ i64wrap (toI64 sym + A - toI64 place) ∧
        i64wrap (toI64 sym + A - toI64 place) < 2 ^ 31) →
      applyX8664Reloc 2 place bias sym A =
        .error (.relocOverflowPC32 (i64wrap (toI64 sym + A - toI64 place)))) ∧
    (t ∉ ([0, 1, 2, 6, 7, 8, 10, 11, 18] : List Nat) →
      applyX8664Reloc t place bias sym A = .error (.unsupportedReloc 62 t)) ∧
    (applyOneRelocation 62 2 mem mapStart mapLen bias dynSyms env symIndex t offset A false =
      applyOneRelocation 62 2 mem mapStart mapLen bias dynSyms env symIndex t offset
        (toI64 (readU64 mem ((bias + offset) % U64))) true) := by
  have hu32 : ∀ v : Int, 0 ≤ v → v < 2 ^ 32 → u32ofI v = v.toNat := by
    intro v h0 h1
    unfold u32ofI
    rw [Int.emod_eq_of_lt h0 (by unfold U32; exact_mod_cast h1)]
  refine ⟨rfl, rfl, ⟨rfl, rfl, rfl, rfl⟩, ?_, ?_, ?_, ?_, ?_, ?_, ?_, rfl⟩
  · intro hv
    have hv1 := hv.1
    have hv2 := hv.2
    norm_num at hv2
    show (if i64wrap (toI64 sym + A) < 0 ∨ i64wrap (toI64 sym + A) > 0xffffffff then
        (.error (.relocOverflow32 (i64wrap (toI64 sym + A))) : Except LoadErr RelocWrite)
      else .ok (.w32 place (u32ofI (i64wrap (toI64 sym + A))))) = _
    rw [if_neg (by omega), hu32 _ hv.1 hv.2]
  · intro hv
    show (if i64wrap (toI64 sym + A) < 0 ∨ i64wrap (toI64 sym + A) > 0xffffffff then
        (.error (.relocOverflow32 (i64wrap (toI64 sym + A))) : Except LoadErr RelocWrite)
      else .ok (.w32 place (u32ofI (i64wrap (toI64 sym + A))))) = _
    rw [if_pos ?_]
    by_contra hc
    push_neg at hc
    obtain ⟨hc1, hc2⟩ := hc
    refine hv ⟨by omega, by norm_num; omega⟩
  · intro hv
    have hv1 := hv.1
    have hv2 := hv.2
    norm_num at hv1 hv2
    show (if i64wrap (toI64 sym + A) < -0x80000000 ∨ i64wrap (toI64 sym + A) > 0x7fffffff then
        (.error (.relocOverflow32S (i64wrap (toI64 sym + A))) : Except LoadErr RelocWrite)
      else .ok (.w32 place (u32ofI (i64wrap (toI64 sym + A))))) = _
    rw [if_neg (by omega)]
  · intro hv
    show (if i64wrap (toI64 sym + A) < -0x80000000 ∨ i64wrap (toI64 sym + A) > 0x7fffffff then
        (.error (.relocOverflow32S (i64wrap (toI64 sym + A))) : Except LoadErr RelocWrite)
      else .ok (.w32 place (u32ofI (i64wrap (toI64 sym + A))))) = _
    rw [if_pos ?_]
    by_contra hc
    push_neg at hc
    obtain ⟨hc1, hc2⟩ := hc
    refine hv ⟨by norm_num; omega, by norm_num; omega⟩
  · intro hv
    have hv1 := hv.1
    have hv2 := hv.2
    norm_num at hv1 hv2
    show (if i64wrap (toI64 sym + A - toI64 place) < -0x80000000 ∨
        i64wrap (toI64 sym + A - toI64 place) > 0x7fffffff then
        (.error (.relocOverflowPC32 (i64wrap (toI64 sym + A - toI64 place))) :
          Except LoadErr RelocWrite)
      else .ok (.w32 place (u32ofI (i64wrap (toI64 sym + A - toI64 place))))) = _
    rw [if_neg (by omega)]
  · intro hv
    show (if i64wrap (toI64 sym + A - toI64 place) < -0x80000000 ∨
        i64wrap (toI64 sym + A - toI64 place) > 0x7fffffff then
        (.error (.relocOverflowPC32 (i64wrap (toI64 sym + A - toI64 place))) :
          Except LoadErr RelocWrite)
      else .ok (.w32 place (u32ofI (i64wrap (toI64 sym + A - toI64 place))))) = _
    rw [if_pos ?_]
    by_contra hc
    push_neg at hc
    obtain ⟨hc1, hc2⟩ := hc
    refine hv ⟨by norm_num; omega, by norm_num; omega⟩
  · intro ht
    simp only [List.mem_cons, List.not_mem_nil, or_false] at ht
    push_neg at ht
    obtain ⟨h0, h1, h2, h6, h7, h8, h10, h11, h18⟩ := ht
    unfold applyX8664Reloc
    simp [h0, h1, h2, h6, h7, h8, h10, h11, h18]

/-- Witness for applyX8664Reloc_spec: a type 32 relocation with value 8
writes the 32-bit word 8, and type 99 is rejected. -/
theorem applyX8664Reloc_spec_witness :
    applyX8664Reloc 10 100 7 5 3 = .ok (.w32 100 8) ∧
    applyX8664Reloc 99 100 7 5 3 = .error (.unsupportedReloc 62 99) := by
  have h := applyX8664Reloc_spec 100 7 5 3 99 (fun _ => 0) 0 0 []
    ⟨fun _ => Option.none, fun _ => false, fun _ => Option.none, fun _ => Option.none,
      false, false, fun _ => Option.none, fun _ => Option.none⟩ 0 0
  refine ⟨?_, h.2.2.2.2.2.2.2.2.2.1 (by decide)⟩
  have h10 := h.2.2.2.1 (by decide)
  simpa using h10

/-- C8 counterexample: a type 32 (R_386_32) relocation whose value
S + A = 2^32 overflows 32 bits; the claim predicts an error, but the code
silently truncates and writes the 32-bit word 0. -/
theorem apply386Reloc_32_cx :
    apply386Reloc 1 0 0 (2 ^ 31) (2 ^ 31) = .ok (.w32 0 0) ∧
    ∀ e : LoadErr, apply386Reloc 1 0 0 (2 ^ 31) (2 ^ 31) ≠ .error e := by
  have h : apply386Reloc 1 0 0 (2 ^ 31) (2 ^ 31) = .ok (.w32 0 0) := by rfl
  exact ⟨h, fun e he => by rw [h] at he; cases he⟩

/-- C8 (amended): the i386 relocation rules as the code implements them:
NONE writes nothing; RELATIVE writes the 32-bit truncation of
load_bias + A; TLS_TPOFF, 32 and 32PLT write the 32-bit truncation of
S + A with no overflow check; GLOB_DAT and JMP_SLOT write the 32-bit
truncation of S alone, ignoring the addend; PC32 writes S + A - place and
fails when the wrapped int64 value lies outside [-2^31, 2^31); every
other type fails as unsupported. -/
theorem apply386Reloc_spec (place bias sym : Nat) (A : Int) (t : Nat) :
    (apply386Reloc 0 place bias sym A = .ok .skip) ∧
    (apply386Reloc 8 place bias sym A = .ok (.w32 place (u32ofI (toI64 bias + A)))) ∧
    (apply386Reloc 14 place bias sym A = .ok (.w32 place (u32ofI (toI64 sym + A)))) ∧
    (apply386Reloc 6 place bias sym A = .ok (.w32 place (sym % U32)) ∧
     apply386Reloc 7 place bias sym A = .ok (.w32 place (sym % U32))) ∧
    (apply386Reloc 1 place bias sym A = .ok (.w32 place (u32ofI (toI64 sym + A))) ∧
     apply386Reloc 11 place bias sym A = .ok (.w32 place (u32ofI (toI64 sym + A)))) ∧
    (-(2 ^ 31) ≤ i64wrap (toI64 sym + A - toI64 place) ∧
        i64wrap (toI64 sym + A - toI64 place) < 2 ^ 31 →
      apply386Reloc 2 place bias sym A =
        .ok (.w32 place (u32ofI (i64wrap (toI64 sym + A - toI64 place))))) ∧
    (¬ (-(2 ^ 31) ≤ i64wrap (toI64 sym + A - toI64 place) ∧
        i64wrap (toI64 sym + A - toI64 place) < 2 ^ 31) →
      apply386Reloc 2 place bias sym A =
        .error (.relocOverflowPC32 (i64wrap (toI64 sym + A - toI64 place)))) ∧
    (t ∉ ([0, 1, 2, 6, 7, 8, 11, 14] : List Nat) →
      apply386Reloc t place bias sym A = .error (.unsupportedReloc 3 t)) := by
  refine ⟨rfl, rfl, rfl, ⟨rfl, rfl⟩, ⟨rfl, rfl⟩, ?_, ?_, ?_⟩
  · intro hv
    have hv1 := hv.1
    have hv2 := hv.2
    norm_num at hv1 hv2
    show (if i64wrap (toI64 sym + A - toI64 place) < -0x80000000 ∨
        i64wrap (toI64 sym + A - toI64 place) > 0x7fffffff then
        (.error (.relocOverflowPC32 (i64wrap (toI64 sym + A - toI64 place))) :
          Except LoadErr RelocWrite)
      else .ok (.w32 place (u32ofI (i64wrap (toI64 sym + A - toI64 place))))) = _
    rw [if_neg (by omega)]
  · intro hv
    show (if i64wrap (toI64 sym + A - toI64 place) < -0x80000000 ∨
        i64wrap (toI64 sym + A - toI64 place) > 0x7fffffff then
        (.error (.relocOverflowPC32 (i64wrap (toI64 sym + A - toI64 place))) :
          Except LoadErr RelocWrite)
      else .ok (.w32 place (u32ofI (i64wrap (toI64 sym + A - toI64 place))))) = _
    rw [if_pos ?_]
    by_contra hc
    push_neg at hc
    obtain ⟨hc1, hc2⟩ := hc
    refine hv ⟨by norm_num; omega, by norm_num; omega⟩
  · intro ht
    simp only [List.mem_cons, List.not_mem_nil, or_false] at ht
    push_neg at ht
    obtain ⟨h0, h1, h2, h6, h7, h8, h11, h14⟩ := ht
    unfold apply386Reloc
    simp [h0, h1, h2, h6, h7, h8, h11, h14]

/-- Witness for apply386Reloc_spec: a GLOB_DAT relocation writes the
symbol value with the addend dropped, and type 99 is rejected. -/
theorem apply386Reloc_spec_witness :
    apply386Reloc 6 50 7 5 3 = .ok (.w32 50 (5 % U32)) ∧
    apply386Reloc 99 50 7 5 3 = .error (.unsupportedReloc 3 99) := by
  have h := apply386Reloc_spec 50 7 5 3 99
  exact ⟨h.2.2.2.1.1, h.2.2.2.2.2.2.2 (by decide)⟩

/-- When every stage of the resolver fails for every name (no cached
address, no cached miss, and the runtime-module scan, the dlsym call and
both primed retries all miss), Resolve reports the unresolved-external
error naming the symbol, for any fuel. -/
theorem Resolve_allFail (env : ResolveEnv)
    (hres : ∀ n, env.resolvedCache n = Option.none)
    (hmiss : ∀ n, env.missCache n = false)
    (h1 : ∀ n, oracleHit (env.modulesLookup n) = false)
    (h2 : ∀ n, oracleHit (env.dlsymLookup n) = false)
    (h3 : ∀ n, oracleHit (env.modulesLookupPrimed n) = false)
    (h4 : ∀ n, oracleHit (env.dlsymLookupPrimed n) = false) :
    ∀ fuel name, Resolve env fuel name = .error (.unresolvedExternal name) := by
  intro fuel
  induction fuel with
  | zero => intro name; rfl
  | succ f ih =>
    intro name
    unfold Resolve
    rw [hres name, hmiss name, h1 name, h2 name, h3 name, h4 name]
    simp only [Bool.false_eq_true, if_false, Bool.and_false, ite_self]
    split
    · split
      · rw [ih]
      · rfl
    · rfl

/-- C3: a relocation against an undefined dynamic symbol (section UNDEF)
resolves to zero without consulting the external resolver when the
binding is weak (the result is ok 0 for every resolver environment); and
when the binding is not weak and every stage of the external resolver
fails for the name (runtime modules, dlsym, the post-priming retries, and
recursively the versionless base of a versioned name), the load fails
with the unresolved-external-symbol error naming the symbol. -/
theorem resolveRelocationSymbol_spec (symIndex : Nat) (dynSyms : List ElfSym) (bias : Nat)
    (sym : ElfSym) (hsym : dynSymbolByIndex dynSyms symIndex = some sym)
    (hundef : sym.secIdx = 0) :
    (sym.info >>> 4 = 2 →
      ∀ env, resolveRelocationSymbol symIndex dynSyms bias env = .ok 0) ∧
    (sym.info >>> 4 ≠ 2 → sym.name ≠ [] →
      ∀ env, (∀ n, env.resolvedCache n = Option.none) → (∀ n, env.missCache n = false) →
        (∀ n, oracleHit (env.modulesLookup n) = false) →
        (∀ n, oracleHit (env.dlsymLookup n) = false) →
        (∀ n, oracleHit (env.modulesLookupPrimed n) = false) →
        (∀ n, oracleHit (env.dlsymLookupPrimed n) = false) →
        resolveRelocationSymbol symIndex dynSyms bias env =
          .error (.resolveExternal sym.name (.unresolvedExternal sym.name))) := by
  have hidx : symIndex ≠ 0 := by
    intro h0
    rw [h0] at hsym
    simp [dynSymbolByIndex] at hsym
  constructor
  · intro hweak env
    unfold resolveRelocationSymbol
    rw [if_neg hidx, hsym]
    simp [hundef, hweak]
  · intro hbind hname env hres hmiss h1 h2 h3 h4
    unfold resolveRelocationSymbol
    rw [if_neg hidx, hsym]
    have hr := Resolve_allFail env hres hmiss h1 h2 h3 h4
    simp [hundef, hbind, hname, ResolveTop, hr]

/-- A resolver environment in which every lookup fails. -/
def allNoneEnv : ResolveEnv :=
  ⟨fun _ => Option.none, fun _ => false, fun _ => Option.none, fun _ => Option.none,
    false, false, fun _ => Option.none, fun _ => Option.none⟩

/-- Witness for resolveRelocationSymbol_spec: an undefined weak symbol
resolves to zero, and an undefined global symbol no stage can resolve
fails with the unresolved-external error naming it. -/
theorem resolveRelocationSymbol_spec_witness :
    resolveRelocationSymbol 1 [⟨['f'], 0x20, 0, 0⟩] 0 allNoneEnv = .ok 0 ∧
    resolveRelocationSymbol 1 [⟨['f'], 0x12, 0, 0⟩] 0 allNoneEnv =
      .error (.resolveExternal ['f'] (.unresolvedExternal ['f'])) := by
  constructor
  · exact (resolveRelocationSymbol_spec 1 [⟨['f'], 0x20, 0, 0⟩] 0 ⟨['f'], 0x20, 0, 0⟩
      (by rfl) (by rfl)).1 (by decide) allNoneEnv
  · exact (resolveRelocationSymbol_spec 1 [⟨['f'], 0x12, 0, 0⟩] 0 ⟨['f'], 0x12, 0, 0⟩
      (by rfl) (by rfl)).2 (by decide) (by decide) allNoneEnv
      (fun _ => rfl) (fun _ => rfl) (fun _ => rfl) (fun _ => rfl) (fun _ => rfl) (fun _ => rfl)

/-- Looking up after an exportInsert: the old table wins, the new pair
answers only keys the old table misses. -/
theorem exportInsert_lookup (dst : List (List Char × Nat)) (key : List Char) (addr : Nat)
    (k : List Char) :
    (exportInsert dst key addr).lookup k =
      (dst.lookup k).or (([(key, addr)] : List (List Char × Nat)).lookup k) := by
  unfold exportInsert
  by_cases h : (dst.lookup key).isSome
  · rw [if_pos h]
    by_cases hk : k = key
    · subst hk
      obtain ⟨v, hv⟩ := Option.isSome_iff_exists.mp h
      rw [hv]
      rfl
    · have hbeq : (k == key) = false := beq_eq_false_iff_ne.mpr hk
      have : (([(key, addr)] : List (List Char × Nat)).lookup k) = Option.none := by
        simp [List.lookup, hbeq]
      rw [this, Option.or_none]
  · rw [if_neg h, List.lookup_append]

/-- Looking up in the table addELFSymbols builds: the accumulator wins,
then the registration events of the symbol list in order. -/
theorem addELFSymbols_lookup (bias : Nat) (syms : List ElfSym) :
    ∀ (dst : List (List Char × Nat)) (k : List Char),
      (addELFSymbols dst syms bias).lookup k =
        (dst.lookup k).or ((exportEvents syms bias).lookup k) := by
  induction syms with
  | nil =>
    intro dst k
    simp [addELFSymbols, exportEvents]
  | cons sym rest ih =>
    intro dst k
    by_cases hel : exportEligible sym
    · by_cases hv : 0 < sym.name.indexOf '@' ∧ sym.name.indexOf '@' < sym.name.length
      · have : addELFSymbols dst (sym :: rest) bias =
            addELFSymbols
              (exportInsert (exportInsert dst sym.name ((bias + sym.value) % U64))
                (sym.name.take (sym.name.indexOf '@')) ((bias + sym.value) % U64))
              rest bias := by
          rw [addELFSymbols, if_pos hel, if_pos hv]
        rw [this, ih, exportInsert_lookup, exportInsert_lookup, Option.or_assoc,
          Option.or_assoc]
        congr 1
        rw [exportEvents, if_pos hel, if_pos hv]
        rw [show ((sym.name, (bias + sym.value) % U64) ::
            [(sym.name.take (sym.name.indexOf '@'), (bias + sym.value) % U64)] ++
            exportEvents rest bias) =
          ([(sym.name, (bias + sym.value) % U64)] ++
            ([(sym.name.take (sym.name.indexOf '@'), (bias + sym.value) % U64)] ++
              exportEvents rest bias)) from rfl]
        rw [List.lookup_append, List.lookup_append]
      · have : addELFSymbols dst (sym :: rest) bias =
            addELFSymbols (exportInsert dst sym.name ((bias + sym.value) % U64)) rest bias := by
          rw [addELFSymbols, if_pos hel, if_neg hv]
        rw [this, ih, exportInsert_lookup, Option.or_assoc]
        congr 1
        rw [exportEvents, if_pos hel, if_neg hv]
        rw [List.lookup_append]
    · have : addELFSymbols dst (sym :: rest) bias = addELFSymbols dst rest bias := by
        rw [addELFSymbols, if_neg hel]
      rw [this, ih]
      congr 1
      rw [exportEvents, if_neg hel]
      rfl

/-- The eligibility filter exactly as the claim states it: nonzero value,
non-UNDEF section, binding GLOBAL or WEAK, type FUNC or NOTYPE (and no
requirement on the name). -/
def exportEligibleClaimed (sym : ElfSym) : Bool :=
  sym.value ≠ 0 ∧ sym.secIdx ≠ 0 ∧ (sym.info >>> 4 = 1 ∨ sym.info >>> 4 = 2) ∧
  (sym.info &&& 0xf = 2 ∨ sym.info &&& 0xf = 0)

/-- C4 counterexample: an empty-named symbol meeting every condition the
claim lists (nonzero value, non-UNDEF section, GLOBAL FUNC) must, per the
claim, appear in the table; the code skips symbols with empty names, so
the table stays empty. -/
theorem buildExportedSymbolTable_cx :
    exportEligibleClaimed ⟨[], 0x12, 1, 5⟩ = true ∧
    (buildExportedSymbolTable (some [⟨[], 0x12, 1, 5⟩]) (some []) 0).lookup [] =
      Option.none := by
  constructor
  · decide
  · rfl

/-- C4 (amended): a lookup in the exported-symbol table equals the first
registration event for that key, where the events of the concatenated
dynamic-then-static symbol list are, per eligible symbol (nonempty name,
nonzero value, non-UNDEF section, binding GLOBAL or WEAK, type FUNC or
NOTYPE, in that list order), its name at load_bias + value, followed by
its versionless base name at the same address when the name contains an
at sign at a positive index. First-inserted wins because the event list
is searched front to back, and dynamic symbols precede static ones. -/
theorem buildExportedSymbolTable_spec (dyn stat : List ElfSym) (bias : Nat) (k : List Char) :
    (buildExportedSymbolTable (some dyn) (some stat) bias).lookup k =
      (exportEvents (dyn ++ stat) bias).lookup k ∧
    exportEvents (dyn ++ stat) bias = exportEvents dyn bias ++ exportEvents stat bias := by
  have happ : exportEvents (dyn ++ stat) bias = exportEvents dyn bias ++ exportEvents stat bias := by
    induction dyn with
    | nil => simp [exportEvents]
    | cons sym rest ih =>
      show exportEvents (sym :: (rest ++ stat)) bias = _
      rw [exportEvents, exportEvents, ih, List.append_assoc]
  refine ⟨?_, happ⟩
  show (addELFSymbols (addELFSymbols [] dyn bias) stat bias).lookup k = _
  rw [addELFSymbols_lookup, addELFSymbols_lookup, happ, List.lookup_append]
  simp

/-- A little-endian 32-bit load always fits in uint32. -/
theorem readLE32_lt (data : List Nat) (i : Nat) : readLE32 data i < U32 := by
  unfold readLE32 U32
  have h0 := Nat.mod_lt (data.getD i 0) (show 0 < 256 by norm_num)
  have h1 := Nat.mod_lt (data.getD (i + 1) 0) (show 0 < 256 by norm_num)
  have h2 := Nat.mod_lt (data.getD (i + 2) 0) (show 0 < 256 by norm_num)
  have h3 := Nat.mod_lt (data.getD (i + 3) 0) (show 0 < 256 by norm_num)
  norm_num
  omega

/-- A 23-byte buffer starting with the AP32 tag. -/
def ap32ShortInput : List Nat := [0x41, 0x50, 0x33, 0x32] ++ List.replicate 19 0

/-- C7 counterexample: a 23-byte buffer whose first 4 bytes are the AP32
tag and whose header_size field reads 0 (below 24). The claim predicts
the AP32-header-invalid failure; the code passes the buffer through
untouched because any input shorter than 24 bytes skips AP32 handling
before the tag is even examined. -/
theorem maybeDepackAP32_cx :
    ap32ShortInput.length = 23 ∧ readLE32 ap32ShortInput 0 = 0x32335041 ∧
    readLE32 ap32ShortInput 4 = 0 ∧
    maybeDepackAP32 ap32ShortInput = .passthrough ∧
    AP32Result.passthrough ≠ .headerErr := by
  refine ⟨by decide, by decide, by decide, ?_, by decide⟩
  rfl

/-- C7 (amended): for a buffer of at least 24 bytes whose first four
bytes are the AP32 tag, with h, p, o the header_size, packed_size and
orig_size fields: validation fails when h < 24 or h exceeds the buffer
length; otherwise when p = 0 or h + p, computed in wrapping uint32
arithmetic, exceeds the buffer length; otherwise when o = 0. When all
checks pass and h + p does not wrap, the p bytes following the h-byte
header are handed to the depacker (decode failure, including a returned
length different from o, is the AP32-decode error); when h + p wraps
modulo 2^32 the checks pass but the packed-slice expression panics. -/
theorem maybeDepackAP32_spec (data : List Nat) (h24 : 24 ≤ data.length)
    (htag : readLE32 data 0 = 0x32335041) :
    (readLE32 data 4 < 24 ∨ data.length < readLE32 data 4 →
      maybeDepackAP32 data = .headerErr) ∧
    (¬ (readLE32 data 4 < 24 ∨ data.length < readLE32 data 4) →
      (readLE32 data 8 = 0 ∨ data.length < (readLE32 data 4 + readLE32 data 8) % U32) →
      maybeDepackAP32 data = .headerErr) ∧
    (¬ (readLE32 data 4 < 24 ∨ data.length < readLE32 data 4) →
      ¬ (readLE32 data 8 = 0 ∨ data.length < (readLE32 data 4 + readLE32 data 8) % U32) →
      readLE32 data 16 = 0 → maybeDepackAP32 data = .headerErr) ∧
    (¬ (readLE32 data 4 < 24 ∨ data.length < readLE32 data 4) →
      ¬ (readLE32 data 8 = 0 ∨ data.length < (readLE32 data 4 + readLE32 data 8) % U32) →
      readLE32 data 16 ≠ 0 → readLE32 data 4 + readLE32 data 8 < U32 →
      maybeDepackAP32 data =
        (match apDepackSafe ((data.drop (readLE32 data 4)).take (readLE32 data 8))
            (List.replicate (readLE32 data 16) 0) with
        | (outLen, true, res) =>
          if outLen = readLE32 data 16 then .depacked res else .decodeErr
        | (_, false, _) => .decodeErr)) ∧
    (¬ (readLE32 data 4 < 24 ∨ data.length < readLE32 data 4) →
      ¬ (readLE32 data 8 = 0 ∨ data.length < (readLE32 data 4 + readLE32 data 8) % U32) →
      readLE32 data 16 ≠ 0 → U32 ≤ readLE32 data 4 + readLE32 data 8 →
      maybeDepackAP32 data = .panicked) := by
  have hnl : ¬ data.length < 24 := by omega
  have hnt : ¬ readLE32 data 0 ≠ 0x32335041 := by simpa using htag
  have hhlt := readLE32_lt data 4
  have hplt := readLE32_lt data 8
  refine ⟨?_, ?_, ?_, ?_, ?_⟩
  · intro h1
    unfold maybeDepackAP32
    rw [if_neg hnl, if_neg hnt, if_pos h1]
  · intro h1 h2
    unfold maybeDepackAP32
    rw [if_neg hnl, if_neg hnt, if_neg h1, if_pos h2]
  · intro h1 h2 h3
    unfold maybeDepackAP32
    rw [if_neg hnl, if_neg hnt, if_neg h1, if_neg h2, if_pos h3]
  · intro h1 h2 h3 h4
    have hmod : (readLE32 data 4 + readLE32 data 8) % U32 = readLE32 data 4 + readLE32 data 8 :=
      Nat.mod_eq_of_lt h4
    have hnp : ¬ (readLE32 data 4 + readLE32 data 8) % U32 < readLE32 data 4 := by
      rw [hmod]; omega
    unfold maybeDepackAP32
    rw [if_neg hnl, if_neg hnt, if_neg h1, if_neg h2, if_neg h3, if_neg hnp]
  · intro h1 h2 h3 h4
    have hmod : (readLE32 data 4 + readLE32 data 8) % U32 =
        readLE32 data 4 + readLE32 data 8 - U32 := by
      rw [Nat.mod_eq_sub_mod h4, Nat.mod_eq_of_lt (by omega)]
    have hp : (readLE32 data 4 + readLE32 data 8) % U32 < readLE32 data 4 := by
      rw [hmod]; omega
    unfold maybeDepackAP32
    rw [if_neg hnl, if_neg hnt, if_neg h1, if_neg h2, if_neg h3, if_pos hp]

/-- A 24-byte buffer starting with the AP32 tag and a zero header_size. -/
def ap32BadHeaderInput : List Nat := [0x41, 0x50, 0x33, 0x32] ++ List.replicate 20 0

/-- Witness for maybeDepackAP32_spec: a 24-byte tagged buffer whose
header_size field is zero is rejected as an invalid AP32 header. -/
theorem maybeDepackAP32_spec_witness :
    maybeDepackAP32 ap32BadHeaderInput = .headerErr :=
  (maybeDepackAP32_spec ap32BadHeaderInput (by decide) (by decide)).1 (by decide)

/-- Aligning down never increases an address. -/
theorem alignDown64_le (v a : Nat) : alignDown64 v a ≤ v := by
  unfold alignDown64
  split
  · exact Nat.le_refl v
  · exact Nat.and_le_left

/-- Disjointness of the whole memory images of two segments. -/
def SegDisj (p q : GoProg) : Prop :=
  p.vaddr + p.memsz ≤ q.vaddr ∨ q.vaddr + q.memsz ≤ p.vaddr

instance (p q : GoProg) : Decidable (SegDisj p q) := by
  unfold SegDisj
  infer_instance

/-- A kept program header passes the loadSegs filter. -/
theorem loadSegs_cons_keep {p : GoProg} (l : List GoProg) (h1 : p.ptype = 1)
    (h2 : p.memsz ≠ 0) : loadSegs (p :: l) = p :: loadSegs l := by
  unfold loadSegs
  rw [List.filter_cons, if_pos (by simp [h1, h2])]

/-- A skipped program header is dropped by the loadSegs filter. -/
theorem loadSegs_cons_skip {p : GoProg} (l : List GoProg)
    (h : p.ptype ≠ 1 ∨ p.memsz = 0) : loadSegs (p :: l) = loadSegs l := by
  unfold loadSegs
  rw [List.filter_cons, if_neg ?_]
  rcases h with h | h <;> simp [h]

/-- Characterization of the first mapELFImage loop: the returned minimum
and maximum are the fold of the aligned segment bounds over the kept
segments, and the returned segment list is the accumulator followed by
the kept segments in order. -/
theorem scanLoads_ok (page : Nat) (l : List GoProg) :
    ∀ (minV maxV : Nat) (acc : List GoProg) (mn mx : Nat) (segs : List GoProg),
      scanLoads page l minV maxV acc = .ok (mn, mx, segs) →
      segs = acc.reverse ++ loadSegs l ∧ mn ≤ minV ∧ maxV ≤ mx ∧
      (∀ p ∈ loadSegs l, mn ≤ alignDown64 p.vaddr page ∧
        alignUp64 ((p.vaddr + p.memsz) % U64) page ≤ mx) ∧
      (mn = minV ∨ ∃ p ∈ loadSegs l, mn = alignDown64 p.vaddr page) ∧
      (mx = maxV ∨ ∃ p ∈ loadSegs l, mx = alignUp64 ((p.vaddr + p.memsz) % U64) page) := by
  induction l with
  | nil =>
    intro minV maxV acc mn mx segs h
    simp only [scanLoads, Except.ok.injEq, Prod.mk.injEq] at h
    obtain ⟨h1, h2, h3⟩ := h
    subst h1; subst h2; subst h3
    simp [loadSegs]
  | cons p rest ih =>
    intro minV maxV acc mn mx segs h
    by_cases hskip : p.ptype ≠ 1 ∨ p.memsz = 0
    · rw [scanLoads, if_pos hskip] at h
      rw [loadSegs_cons_skip rest hskip]
      exact ih minV maxV acc mn mx segs h
    · push_neg at hskip
      obtain ⟨hp1, hp2⟩ := hskip
      rw [scanLoads, if_neg (by push_neg; exact ⟨hp1, hp2⟩)] at h
      by_cases hrange : alignUp64 ((p.vaddr + p.memsz) % U64) page ≤ alignDown64 p.vaddr page
      · rw [if_pos hrange] at h
        cases h
      · rw [if_neg hrange] at h
        obtain ⟨hsegs, hmn, hmx, hall, hmina, hmaxa⟩ := ih _ _ _ mn mx segs h
        rw [loadSegs_cons_keep rest hp1 hp2]
        refine ⟨?_, ?_, ?_, ?_, ?_, ?_⟩
        · rw [hsegs]
          simp
        · refine le_trans hmn ?_
          split
          · omega
          · exact Nat.le_refl _
        · refine le_trans ?_ hmx
          split
          · omega
          · exact Nat.le_refl _
        · intro q hq
          rcases List.mem_cons.mp hq with hq | hq
          · subst hq
            constructor
            · refine le_trans hmn ?_
              split
              · exact Nat.le_refl _
              · omega
            · refine le_trans ?_ hmx
              split
              · omega
              · omega
          · exact hall q hq
        · rcases hmina with hmina | ⟨q, hq, hqe⟩
          · by_cases hlt : alignDown64 p.vaddr page < minV
            · rw [if_pos hlt] at hmina
              exact Or.inr ⟨p, List.mem_cons_self p _, hmina⟩
            · rw [if_neg hlt] at hmina
              exact Or.inl hmina
          · exact Or.inr ⟨q, List.mem_cons_of_mem p hq, hqe⟩
        · rcases hmaxa with hmaxa | ⟨q, hq, hqe⟩
          · by_cases hlt : maxV < alignUp64 ((p.vaddr + p.memsz) % U64) page
            · rw [if_pos hlt] at hmaxa
              exact Or.inr ⟨p, List.mem_cons_self p _, hmaxa⟩
            · rw [if_neg hlt] at hmaxa
              exact Or.inl hmaxa
          · exact Or.inr ⟨q, List.mem_cons_of_mem p hq, hqe⟩

/-- Indices disjoint from every segment's copied range read the previous
content through copySegs. -/
theorem copySegs_preserve (raw : List Nat) (minV : Nat) (segs : List GoProg) :
    ∀ (f g : Nat → Nat) (i : Nat), copySegs raw minV segs f = .ok g →
      (∀ r ∈ segs, r.filesz = 0 ∨ i < r.vaddr - minV ∨ r.vaddr - minV + r.filesz ≤ i) →
      g i = f i := by
  induction segs with
  | nil =>
    intro f g i h _
    simp only [copySegs, Except.ok.injEq] at h
    rw [← h]
  | cons r rest ih =>
    intro f g i h hdis
    by_cases hf : r.filesz = 0
    · rw [copySegs, if_pos hf] at h
      exact ih f g i h fun r' hr' => hdis r' (List.mem_cons_of_mem r hr')
    · rw [copySegs, if_neg hf] at h
      by_cases hb : r.off > raw.length ∨ r.filesz > raw.length - r.off
      · rw [if_pos hb] at h
        cases h
      · rw [if_neg hb] at h
        by_cases hc : 2 ^ 63 - 1 < r.filesz
        · rw [if_pos hc] at h
          cases h
        · rw [if_neg hc] at h
          rw [ih _ g i h fun r' hr' => hdis r' (List.mem_cons_of_mem r hr')]
          push_neg at hb
          have hlen : ((raw.drop r.off).take r.filesz).length = r.filesz := by
            rw [List.length_take, List.length_drop]
            omega
          rcases hdis r (List.mem_cons_self r rest) with h0 | hlt | hge
          · exact absurd h0 hf
          · unfold writeBytes
            rw [if_neg (by rw [hlen]; omega)]
          · unfold writeBytes
            rw [if_neg (by rw [hlen]; omega)]

/-- Bytes inside a kept segment's copied range read the file buffer
through copySegs, provided the segments' memory images are pairwise
disjoint and contain their file images. -/
theorem copySegs_write (raw : List Nat) (minV : Nat) (segs : List GoProg) :
    ∀ (f g : Nat → Nat), copySegs raw minV segs f = .ok g →
      List.Pairwise SegDisj segs →
      (∀ r ∈ segs, minV ≤ r.vaddr) → (∀ r ∈ segs, r.filesz ≤ r.memsz) →
      ∀ p ∈ segs, ∀ d, d < p.filesz →
        g (p.vaddr - minV + d) = raw.getD (p.off + d) 0 := by
  induction segs with
  | nil =>
    intro f g _ _ _ _ p hp
    exact absurd hp (List.not_mem_nil p)
  | cons r rest ih =>
    intro f g h hpw hminle hfm p hp d hd
    have hpwr := (List.pairwise_cons.mp hpw).1
    have hpwt := (List.pairwise_cons.mp hpw).2
    have hminle' : ∀ r' ∈ rest, minV ≤ r'.vaddr :=
      fun r' hr' => hminle r' (List.mem_cons_of_mem r hr')
    have hfm' : ∀ r' ∈ rest, r'.filesz ≤ r'.memsz :=
      fun r' hr' => hfm r' (List.mem_cons_of_mem r hr')
    rcases List.mem_cons.mp hp with rfl | hp'
    · have hf : ¬ p.filesz = 0 := by omega
      rw [copySegs, if_neg hf] at h
      by_cases hb : p.off > raw.length ∨ p.filesz > raw.length - p.off
      · rw [if_pos hb] at h
        cases h
      · rw [if_neg hb] at h
        by_cases hc : 2 ^ 63 - 1 < p.filesz
        · rw [if_pos hc] at h
          cases h
        · rw [if_neg hc] at h
          push_neg at hb
          have hminp := hminle p (List.mem_cons_self p rest)
          have hfmp := hfm p (List.mem_cons_self p rest)
          have hpres := copySegs_preserve raw minV rest _ g (p.vaddr - minV + d) h ?_
          · rw [hpres]
            have hlen : ((raw.drop p.off).take p.filesz).length = p.filesz := by
              rw [List.length_take, List.length_drop]
              omega
            unfold writeBytes
            rw [if_pos (by rw [hlen]; omega)]
            have hidx : p.vaddr - minV + d - (p.vaddr - minV) = d := by omega
            rw [hidx]
            rw [List.getD_eq_getElem?_getD, List.getD_eq_getElem?_getD,
              List.getElem?_take, if_pos hd, List.getElem?_drop]
          · intro r' hr'
            have hdj := hpwr r' hr'
            have hm' := hminle' r' hr'
            have hf' := hfm' r' hr'
            rcases hdj with hdj | hdj
            · right; left; omega
            · right; right; omega
    · by_cases hf : r.filesz = 0
      · rw [copySegs, if_pos hf] at h
        exact ih f g h hpwt hminle' hfm' p hp' d hd
      · rw [copySegs, if_neg hf] at h
        by_cases hb : r.off > raw.length ∨ r.filesz > raw.length - r.off
        · rw [if_pos hb] at h
          cases h
        · rw [if_neg hb] at h
          by_cases hc : 2 ^ 63 - 1 < r.filesz
          · rw [if_pos hc] at h
            cases h
          · rw [if_neg hc] at h
            exact ih _ g h hpwt hminle' hfm' p hp' d hd

/-- C1 counterexample: two PT_LOAD segments that map the same virtual
address load successfully; the second copy overwrites the first, so the
mapped byte for the first segment's file position 0 is input byte 1, not
input byte 0 as the claim demands. -/
theorem mapELFImage_cx :
    ((mapELFImage [7, 9] [⟨1, 7, 0, 0, 1, 1⟩, ⟨1, 7, 1, 0, 1, 1⟩] 4096).toOption.map
      fun m => byteAtBiasPlus m (0 + (0 - 0))) = some 9 ∧
    ([7, 9] : List Nat).getD 0 0 = 7 ∧ (9 : Nat) ≠ 7 := by
  refine ⟨?_, by decide, by decide⟩
  rfl

/-- C1 (amended): after a successful load of an image whose PT_LOAD
segments satisfy filesz ≤ memsz and have pairwise disjoint memory images
[vaddr, vaddr+memsz): every file byte of every segment appears in the
mapping at load_bias + vaddr + (q - file_offset) (addresses load_bias + x
are represented as offset x - minVAddr from the mapping base); the bytes
between filesz and memsz of each segment are zero; the reserved region
spans [min over segments of align_down(vaddr), max over segments of
align_up(vaddr+memsz)), both bounds being attained, and the mapping
length is exactly that span. -/
theorem mapELFImage_spec (raw : List Nat) (progs : List GoProg) (page : Nat) (m : MappedELF)
    (h : mapELFImage raw progs page = .ok m)
    (hfm : ∀ p ∈ loadSegs progs, p.filesz ≤ p.memsz)
    (hdisj : (loadSegs progs).Pairwise SegDisj) :
    (∀ p ∈ loadSegs progs, ∀ q, p.off ≤ q → q < p.off + p.filesz →
      byteAtBiasPlus m (p.vaddr + (q - p.off)) = raw.getD q 0) ∧
    (∀ p ∈ loadSegs progs, ∀ v, p.vaddr + p.filesz ≤ v → v < p.vaddr + p.memsz →
      byteAtBiasPlus m v = 0) ∧
    (∀ p ∈ loadSegs progs, m.minVAddr ≤ alignDown64 p.vaddr page ∧
      alignUp64 ((p.vaddr + p.memsz) % U64) page ≤ m.maxVAddr) ∧
    (∃ p ∈ loadSegs progs, m.minVAddr = alignDown64 p.vaddr page) ∧
    (∃ p ∈ loadSegs progs, m.maxVAddr = alignUp64 ((p.vaddr + p.memsz) % U64) page) ∧
    m.mapLen = m.maxVAddr - m.minVAddr := by
  have hsymm : Symmetric SegDisj := fun a b hab => Or.symm hab
  unfold mapELFImage at h
  by_cases hpg : page = 0
  · rw [if_pos hpg] at h
    cases h
  rw [if_neg hpg] at h
  cases hscan : scanLoads page progs (U64 - 1) 0 [] with
  | error e =>
    rw [hscan] at h
    cases h
  | ok t =>
    obtain ⟨minV, maxV, segs⟩ := t
    rw [hscan] at h
    dsimp only at h
    by_cases h1 : segs.length = 0 ∨ minV = U64 - 1 ∨ maxV ≤ minV
    · rw [if_pos h1] at h
      cases h
    rw [if_neg h1] at h
    by_cases h2 : maxV - minV = 0
    · rw [if_pos h2] at h
      cases h
    rw [if_neg h2] at h
    by_cases h3 : 2 ^ 63 - 1 < maxV - minV
    · rw [if_pos h3] at h
      cases h
    rw [if_neg h3] at h
    cases hcopy : copySegs raw minV segs (fun _ => 0) with
    | error e =>
      rw [hcopy] at h
      cases h
    | ok f =>
      rw [hcopy] at h
      injection h with h'
      subst h'
      obtain ⟨hsegs, -, -, hall, hmina, hmaxa⟩ := scanLoads_ok page progs _ _ _ _ _ _ hscan
      rw [List.reverse_nil, List.nil_append] at hsegs
      subst hsegs
      push_neg at h1
      obtain ⟨hne, hnsent, hltm⟩ := h1
      have hminle : ∀ r ∈ loadSegs progs, minV ≤ r.vaddr :=
        fun r hr => le_trans (hall r hr).1 (alignDown64_le _ _)
      refine ⟨?_, ?_, hall, ?_, ?_, rfl⟩
      · intro p hp q hq1 hq2
        have hminp := hminle p hp
        show f (p.vaddr + (q - p.off) - minV) = raw.getD q 0
        have hidx : p.vaddr + (q - p.off) - minV = p.vaddr - minV + (q - p.off) := by omega
        rw [hidx,
          copySegs_write raw minV (loadSegs progs) _ f hcopy hdisj hminle hfm p hp (q - p.off)
            (by omega)]
        congr 1
        omega
      · intro p hp v hv1 hv2
        have hminp := hminle p hp
        have hfmp := hfm p hp
        show f (v - minV) = 0
        rw [copySegs_preserve raw minV (loadSegs progs) (fun _ => 0) f (v - minV) hcopy ?_]
        intro r hr
        by_cases hrp : r = p
        · subst hrp
          right; right
          omega
        · have hdj := List.Pairwise.forall hsymm hdisj hr hp hrp
          have hminr := hminle r hr
          have hfmr := hfm r hr
          rcases hdj with hdj | hdj
          · right; right
            omega
          · right; left
            omega
      · rcases hmina with hmina | hmina
        · exact absurd hmina hnsent
        · exact hmina
      · rcases hmaxa with hmaxa | hmaxa
        · omega
        · exact hmaxa

/-- Concrete two-segment image used as the witness for mapELFImage_spec. -/
def mapELFWitnessImage : MappedELF :=
  match mapELFImage [10, 11, 12, 13, 14] [⟨1, 7, 0, 0, 3, 5⟩, ⟨1, 7, 3, 4096, 2, 2⟩] 4096 with
  | .ok m => m
  | .error _ => ⟨0, 0, 0, fun _ => 0, []⟩

/-- Witness for mapELFImage_spec: the first segment's second file byte
lands at bias-relative address 1, and its BSS byte at address 4 is zero. -/
theorem mapELFImage_spec_witness :
    byteAtBiasPlus mapELFWitnessImage (0 + (1 - 0)) = ([10, 11, 12, 13, 14] : List Nat).getD 1 0 ∧
    byteAtBiasPlus mapELFWitnessImage 4 = 0 := by
  have h : mapELFImage [10, 11, 12, 13, 14] [⟨1, 7, 0, 0, 3, 5⟩, ⟨1, 7, 3, 4096, 2, 2⟩] 4096 =
      .ok mapELFWitnessImage := rfl
  have hs := mapELFImage_spec [10, 11, 12, 13, 14] [⟨1, 7, 0, 0, 3, 5⟩, ⟨1, 7, 3, 4096, 2, 2⟩]
    4096 mapELFWitnessImage h (by decide) (by decide)
  exact ⟨hs.1 ⟨1, 7, 0, 0, 3, 5⟩ (by decide) 1 (by decide) (by decide),
    hs.2.1 ⟨1, 7, 0, 0, 3, 5⟩ (by decide) 4 (by decide) (by decide)⟩

/-- Characters with equal code points are equal. -/
theorem charToNatInj {a b : Char} (h : a.toNat = b.toNat) : a = b := by
  have h1 : a.val.toNat = b.val.toNat := h
  exact Char.ext (UInt32.eq_of_val_eq (Fin.eq_of_val_eq h1))

/-- pathLt never relates a list to itself. -/
theorem pathLt_irrefl : ∀ a : List Char, pathLt a a = false := by
  intro a
  induction a with
  | nil => rfl
  | cons x xs ih =>
    unfold pathLt
    rw [if_neg (by omega), if_neg (by omega)]
    exact ih

/-- pathLt is asymmetric. -/
theorem pathLt_asymm : ∀ a b : List Char, pathLt a b = true → pathLt b a = false := by
  intro a
  induction a with
  | nil =>
    intro b h
    cases b with
    | nil => cases h
    | cons y ys => rfl
  | cons x xs ih =>
    intro b h
    cases b with
    | nil => cases h
    | cons y ys =>
      unfold pathLt at h ⊢
      by_cases hxy : x.toNat < y.toNat
      · rw [if_neg (by omega), if_pos hxy]
      · rw [if_neg hxy] at h
        by_cases hyx : y.toNat < x.toNat
        · rw [if_pos hyx] at h
          cases h
        · rw [if_neg hyx] at h
          rw [if_neg hyx, if_neg hxy]
          exact ih ys h

/-- pathLt is transitive. -/
theorem pathLt_trans : ∀ a b c : List Char,
    pathLt a b = true → pathLt b c = true → pathLt a c = true := by
  intro a
  induction a with
  | nil =>
    intro b c h1 h2
    cases b with
    | nil => cases h1
    | cons y ys =>
      cases c with
      | nil => cases h2
      | cons z zs => rfl
  | cons x xs ih =>
    intro b c h1 h2
    cases b with
    | nil => cases h1
    | cons y ys =>
      cases c with
      | nil => cases h2
      | cons z zs =>
        unfold pathLt at h1 h2 ⊢
        by_cases hxy : x.toNat < y.toNat
        · by_cases hyz : y.toNat < z.toNat
          · rw [if_pos (by omega)]
          · rw [if_neg hyz] at h2
            by_cases hzy : z.toNat < y.toNat
            · rw [if_pos hzy] at h2
              cases h2
            · rw [if_pos (by omega)]
        · rw [if_neg hxy] at h1
          by_cases hyx : y.toNat < x.toNat
          · rw [if_pos hyx] at h1
            cases h1
          · rw [if_neg hyx] at h1
            by_cases hyz : y.toNat < z.toNat
            · rw [if_pos (by omega)]
            · rw [if_neg hyz] at h2
              by_cases hzy : z.toNat < y.toNat
              · rw [if_pos hzy] at h2
                cases h2
              · rw [if_neg hzy] at h2
                rw [if_neg (by omega), if_neg (by omega)]
                exact ih ys zs h1 h2

/-- Two lists neither of which precedes the other are equal. -/
theorem pathLt_total : ∀ a b : List Char,
    pathLt a b = false → pathLt b a = false → a = b := by
  intro a
  induction a with
  | nil =>
    intro b h1 _
    cases b with
    | nil => rfl
    | cons y ys => cases h1
  | cons x xs ih =>
    intro b h1 h2
    cases b with
    | nil => cases h2
    | cons y ys =>
      unfold pathLt at h1 h2
      by_cases hxy : x.toNat < y.toNat
      · rw [if_pos hxy] at h1
        cases h1
      · rw [if_neg hxy] at h1
        by_cases hyx : y.toNat < x.toNat
        · rw [if_pos hyx] at h2
          cases h2
        · rw [if_neg hyx] at h1
          rw [if_neg hyx, if_neg hxy] at h2
          have hxych : x = y := charToNatInj (by omega)
          rw [hxych, ih ys h1 h2]

/-- The sorted-order relation of the module comparator: a may precede b. -/
def ModLe (a b : RuntimeModule) : Prop := moduleLess b a = false

/-- The comparator is asymmetric. -/
theorem moduleLess_asymm {a b : RuntimeModule} (h : moduleLess a b = true) : ModLe a b := by
  unfold moduleLess at h
  unfold ModLe moduleLess
  by_cases hs : a.score ≠ b.score
  · rw [if_pos hs] at h
    rw [if_pos (by omega)]
    simp only [decide_eq_true_eq] at h
    simp only [decide_eq_false_iff_not]
    omega
  · rw [if_neg hs] at h
    rw [if_neg (by omega)]
    exact pathLt_asymm _ _ h

/-- The sorted-order relation is transitive. -/
theorem ModLe_trans {a b c : RuntimeModule} (h1 : ModLe a b) (h2 : ModLe b c) : ModLe a c := by
  unfold ModLe moduleLess at h1 h2 ⊢
  by_cases hab : b.score = a.score
  · rw [if_neg (by omega)] at h1
    by_cases hbc : c.score = b.score
    · rw [if_neg (by omega)] at h2
      rw [if_neg (by omega)]
      by_cases hcb : pathLt b.path c.path = true
      · by_cases hca : pathLt c.path a.path = true
        · have := pathLt_trans b.path c.path a.path hcb hca
          rw [h1] at this
          cases this
        · exact Bool.eq_false_iff.mpr hca
      · have hbceq : b.path = c.path :=
          pathLt_total b.path c.path (Bool.eq_false_iff.mpr hcb) h2
        rw [← hbceq]
        exact h1
    · rw [if_pos (by omega)] at h2
      rw [if_pos (by omega)]
      simp only [decide_eq_false_iff_not] at h2 ⊢
      omega
  · rw [if_pos (by omega)] at h1
    simp only [decide_eq_false_iff_not] at h1
    by_cases hbc : c.score = b.score
    · rw [if_neg (by omega)] at h2
      rw [if_pos (by omega)]
      simp only [decide_eq_false_iff_not]
      omega
    · rw [if_pos (by omega)] at h2
      simp only [decide_eq_false_iff_not] at h2
      rw [if_pos (by omega)]
      simp only [decide_eq_false_iff_not]
      omega

/-- Membership in an insertion. -/
theorem moduleInsert_mem (x : RuntimeModule) : ∀ (l : List RuntimeModule) (z : RuntimeModule),
    z ∈ moduleInsert x l ↔ z = x ∨ z ∈ l := by
  intro l
  induction l with
  | nil =>
    intro z
    simp [moduleInsert]
  | cons y ys ih =>
    intro z
    unfold moduleInsert
    split
    · simp [or_comm, or_assoc, or_left_comm]
    · simp only [List.mem_cons, ih z]
      tauto

/-- Insertion preserves sortedness. -/
theorem moduleInsert_pairwise (x : RuntimeModule) :
    ∀ (l : List RuntimeModule), l.Pairwise ModLe → (moduleInsert x l).Pairwise ModLe := by
  intro l
  induction l with
  | nil =>
    intro _
    simp [moduleInsert]
  | cons y ys ih =>
    intro hp
    obtain ⟨hy, hys⟩ := List.pairwise_cons.mp hp
    unfold moduleInsert
    split
    · rename_i hxy
      refine List.pairwise_cons.mpr ⟨?_, hp⟩
      intro z hz
      rcases List.mem_cons.mp hz with rfl | hz
      · exact moduleLess_asymm hxy
      · exact ModLe_trans (moduleLess_asymm hxy) (hy z hz)
    · rename_i hxy
      refine List.pairwise_cons.mpr ⟨?_, ih hys⟩
      intro z hz
      rcases (moduleInsert_mem x ys z).mp hz with rfl | hz
      · unfold ModLe
        simpa using hxy
      · exact hy z hz

/-- The sort is a permutation of its input. -/
theorem moduleSort_perm : ∀ l : List RuntimeModule, (moduleSort l).Perm l := by
  intro l
  induction l with
  | nil => exact List.Perm.refl []
  | cons x xs ih =>
    unfold moduleSort
    refine List.Perm.trans ?_ (List.Perm.cons x ih)
    clear ih
    generalize moduleSort xs = l
    induction l with
    | nil => exact List.Perm.refl _
    | cons y ys ih2 =>
      unfold moduleInsert
      split
      · exact List.Perm.refl _
      · exact List.Perm.trans (List.Perm.cons y ih2) (List.Perm.swap x y ys)

/-- The sort output is sorted. -/
theorem moduleSort_pairwise : ∀ l : List RuntimeModule, (moduleSort l).Pairwise ModLe := by
  intro l
  induction l with
  | nil => exact List.Pairwise.nil
  | cons x xs ih => exact moduleInsert_pairwise x (moduleSort xs) ih

/-- Replacing the value stored under one key rewrites exactly that key's
lookup. -/
theorem lookup_mapReplace (path : List Char) (b : Nat) :
    ∀ acc : List (List Char × Nat),
      (acc.map fun kv => if kv.1 == path then (kv.1, b) else kv).lookup path =
        (acc.lookup path).map fun _ => b := by
  intro acc
  induction acc with
  | nil => rfl
  | cons kv rest ih =>
    obtain ⟨k, v⟩ := kv
    by_cases hk : k = path
    · subst hk
      rw [List.map_cons, if_pos (beq_self_eq_true k)]
      simp [List.lookup]
    · rw [List.map_cons, if_neg (by simp [beq_eq_false_iff_ne.mpr hk])]
      simp [List.lookup, beq_eq_false_iff_ne.mpr (Ne.symm hk)]
      simpa using ih

/-- Replacing one key's value leaves other keys' lookups unchanged. -/
theorem lookup_mapReplace_other (path path' : List Char) (b : Nat) (hne : path' ≠ path) :
    ∀ acc : List (List Char × Nat),
      (acc.map fun kv => if kv.1 == path then (kv.1, b) else kv).lookup path' =
        acc.lookup path' := by
  intro acc
  induction acc with
  | nil => rfl
  | cons kv rest ih =>
    obtain ⟨k, v⟩ := kv
    by_cases hk : k = path
    · subst hk
      rw [List.map_cons, if_pos (beq_self_eq_true k)]
      simp [List.lookup, beq_eq_false_iff_ne.mpr hne]
      simpa using ih
    · rw [List.map_cons, if_neg (by simp [beq_eq_false_iff_ne.mpr hk])]
      cases hpk : path' == k
      · simp [List.lookup, hpk]
        simpa using ih
      · simp [List.lookup, hpk]

/-- One step of the per-path accumulation: the minimum of the stored
value, if any, and a new base. -/
def minStep (o : Option Nat) (b : Nat) : Nat :=
  match o with
  | Option.none => b
  | some c => min c b

/-- Minimum fold over a base list, seeded with an optional current value
(the spec-side reading of the per-path accumulation). -/
def minFold (o : Option Nat) : List Nat → Option Nat
  | [] => o
  | b :: bs => minFold (some (minStep o b)) bs

/-- The bases of the kept mappings of one path, in file order: executable
absolute-path entries of the parsed maps whose start is at least their
offset, restricted to the given path (spec-side definition). -/
def keptBases (entries : List ProcMapEntry) (path : List Char) : List Nat :=
  match entries with
  | [] => []
  | e :: rest =>
    if ¬ (e.path = [] ∨ e.path.head? ≠ some '/') ∧ ¬ e.start < e.offset ∧ e.path = path then
      (e.start - e.offset) :: keptBases rest path
    else keptBases rest path

/-- Effect of updateByPath on its own key: the stored value becomes the
minimum of the old value (if any) and the new base. -/
theorem updateByPath_lookup_self (acc : List (List Char × Nat)) (path : List Char) (b : Nat) :
    (updateByPath acc path b).lookup path = some (minStep (acc.lookup path) b) := by
  unfold updateByPath
  cases hl : acc.lookup path with
  | none =>
    rw [List.lookup_append, hl, Option.none_or]
    simp [List.lookup, minStep]
  | some cur =>
    dsimp only
    by_cases hb : b < cur
    · rw [if_pos hb, lookup_mapReplace, hl]
      show some b = some (min cur b)
      rw [Nat.min_eq_right (Nat.le_of_lt hb)]
    · rw [if_neg hb, hl]
      show some cur = some (min cur b)
      rw [Nat.min_eq_left (Nat.le_of_not_lt hb)]

/-- updateByPath leaves other keys unchanged. -/
theorem updateByPath_lookup_other (acc : List (List Char × Nat)) (path path' : List Char)
    (b : Nat) (hne : path' ≠ path) :
    (updateByPath acc path b).lookup path' = acc.lookup path' := by
  unfold updateByPath
  cases hl : acc.lookup path with
  | none =>
    rw [List.lookup_append]
    have : (([(path, b)] : List (List Char × Nat)).lookup path') = Option.none := by
      simp [List.lookup, beq_eq_false_iff_ne.mpr hne]
    rw [this, Option.or_none]
  | some cur =>
    dsimp only
    by_cases hb : b < cur
    · rw [if_pos hb, lookup_mapReplace_other path path' b hne]
    · rw [if_neg hb]

/-- The per-path fold of runtimeModules computes, for every path, the
minimum base over that path's kept entries, seeded with the accumulator's
entry. -/
theorem byPathFold_lookup : ∀ (entries : List ProcMapEntry) (acc : List (List Char × Nat))
    (path : List Char),
    (byPathFold entries acc).lookup path = minFold (acc.lookup path) (keptBases entries path) := by
  intro entries
  induction entries with
  | nil =>
    intro acc path
    rfl
  | cons e rest ih =>
    intro acc path
    by_cases h1 : e.path = [] ∨ e.path.head? ≠ some '/'
    · rw [byPathFold, if_pos h1, keptBases, if_neg (by tauto)]
      exact ih acc path
    · rw [byPathFold, if_neg h1]
      by_cases h2 : e.start < e.offset
      · rw [if_pos h2, keptBases, if_neg (by tauto)]
        exact ih acc path
      · rw [if_neg h2]
        by_cases h3 : e.path = path
        · rw [keptBases, if_pos ⟨h1, h2, h3⟩, ih, h3, updateByPath_lookup_self]
          rfl
        · rw [keptBases, if_neg (by tauto), ih,
            updateByPath_lookup_other acc e.path path _ (fun h => h3 h.symm)]

/-- A key whose lookup misses is not among the keys. -/
theorem lookup_none_not_memkeys : ∀ (l : List (List Char × Nat)) (k : List Char),
    l.lookup k = Option.none → k ∉ l.map Prod.fst := by
  intro l
  induction l with
  | nil =>
    intro k _
    simp
  | cons kv rest ih =>
    obtain ⟨k', v⟩ := kv
    intro k hl
    simp only [List.lookup] at hl
    cases hk : k == k' with
    | true =>
      rw [hk] at hl
      cases hl
    | false =>
      rw [hk] at hl
      simp only [List.map_cons, List.mem_cons]
      push_neg
      exact ⟨beq_eq_false_iff_ne.mp hk, ih k hl⟩

/-- A successful lookup names a pair of the list. -/
theorem lookup_some_mem : ∀ (l : List (List Char × Nat)) (k : List Char) (v : Nat),
    l.lookup k = some v → (k, v) ∈ l := by
  intro l
  induction l with
  | nil =>
    intro k v h
    cases h
  | cons kv rest ih =>
    obtain ⟨k', v'⟩ := kv
    intro k v h
    simp only [List.lookup] at h
    cases hk : k == k' with
    | true =>
      rw [hk] at h
      injection h with h'
      subst h'
      have : k = k' := beq_iff_eq.mp hk
      subst this
      exact List.mem_cons_self _ _
    | false =>
      rw [hk] at h
      exact List.mem_cons_of_mem _ (ih k v h)

/-- With distinct keys, membership determines the lookup. -/
theorem mem_lookup_of_nodupKeys : ∀ (l : List (List Char × Nat)),
    (l.map Prod.fst).Nodup → ∀ (k : List Char) (v : Nat), (k, v) ∈ l → l.lookup k = some v := by
  intro l
  induction l with
  | nil =>
    intro _ k v h
    cases h
  | cons kv rest ih =>
    obtain ⟨k', v'⟩ := kv
    intro hnd k v h
    simp only [List.map_cons, List.nodup_cons] at hnd
    rcases List.mem_cons.mp h with heq | hmem
    · injection heq with e1 e2
      subst e1; subst e2
      simp [List.lookup]
    · have hk : k ≠ k' := by
        intro he
        subst he
        exact hnd.1 (List.mem_map.mpr ⟨(k, v), hmem, rfl⟩)
      simp only [List.lookup, beq_eq_false_iff_ne.mpr hk]
      exact ih hnd.2 k v hmem

/-- The keys produced by updateByPath. -/
theorem updateByPath_keys (acc : List (List Char × Nat)) (path : List Char) (b : Nat) :
    (updateByPath acc path b).map Prod.fst =
      if (acc.lookup path).isSome then acc.map Prod.fst else acc.map Prod.fst ++ [path] := by
  unfold updateByPath
  cases hl : acc.lookup path with
  | none => simp
  | some cur =>
    dsimp only
    by_cases hb : b < cur
    · rw [if_pos hb]
      simp only [Option.isSome_some, if_true, List.map_map]
      congr 1
      funext kv
      by_cases hk : kv.1 = path <;> simp [hk]
    · rw [if_neg hb]
      simp

/-- The per-path fold keeps its keys distinct. -/
theorem byPathFold_nodupKeys : ∀ (entries : List ProcMapEntry) (acc : List (List Char × Nat)),
    (acc.map Prod.fst).Nodup → ((byPathFold entries acc).map Prod.fst).Nodup := by
  intro entries
  induction entries with
  | nil =>
    intro acc h
    exact h
  | cons e rest ih =>
    intro acc h
    by_cases h1 : e.path = [] ∨ e.path.head? ≠ some '/'
    · rw [byPathFold, if_pos h1]
      exact ih acc h
    · rw [byPathFold, if_neg h1]
      by_cases h2 : e.start < e.offset
      · rw [if_pos h2]
        exact ih acc h
      · rw [if_neg h2]
        refine ih _ ?_
        rw [updateByPath_keys]
        cases hl : acc.lookup e.path with
        | some cur => simpa using h
        | none =>
          simp only [Option.isSome_none, Bool.false_eq_true, if_false]
          rw [List.nodup_append]
          refine ⟨h, List.nodup_singleton _, ?_⟩
          intro a ha hmem
          simp only [List.mem_singleton] at hmem
          subst hmem
          exact lookup_none_not_memkeys acc e.path hl ha

/-- What the minimum fold returns: a lower bound of the list that is
either a list element or the seed. -/
theorem minFold_le : ∀ (bases : List Nat) (o : Option Nat) (b : Nat),
    minFold o bases = some b →
    (∀ c ∈ bases, b ≤ c) ∧ (∀ a, o = some a → b ≤ a) ∧ (b ∈ bases ∨ o = some b) := by
  intro bases
  induction bases with
  | nil =>
    intro o b h
    refine ⟨by simp, ?_, Or.inr h⟩
    intro a ha
    rw [ha] at h
    injection h with h'
    omega
  | cons c cs ih =>
    intro o b h
    replace h : minFold (some (minStep o c)) cs = some b := h
    obtain ⟨hle, hseed, hmem⟩ := ih _ b h
    have hm : b ≤ minStep o c := hseed _ rfl
    refine ⟨?_, ?_, ?_⟩
    · intro x hx
      rcases List.mem_cons.mp hx with hxc | hx
      · subst hxc
        cases o with
        | none => exact hm
        | some a => exact le_trans hm (Nat.min_le_right a _)
      · exact hle x hx
    · intro a ha
      subst ha
      exact le_trans hm (Nat.min_le_left a c)
    · rcases hmem with hmem | hmem
      · exact Or.inl (List.mem_cons_of_mem _ hmem)
      · injection hmem with h'
        cases o with
        | none =>
          have h'' : c = b := h'
          left
          rw [← h'']
          exact List.mem_cons_self _ _
        | some a =>
          have h'' : min a c = b := h'
          rcases min_cases a c with ⟨hmin, -⟩ | ⟨hmin, -⟩
          · right
            rw [← h'', hmin]
          · left
            rw [← h'', hmin]
            exact List.mem_cons_self _ _

/-- The maps text of the C9 counterexample: two executable mappings of
the same absolute path, the later one with the smaller start - offset. -/
def mapsCxText : List Char :=
  ("2000-3000 r-xp 1000 00:00 1 /a\n1000-1800 r-xp 100 00:00 1 /a").toList

/-- The claim's per-path load base: start - offset of the first-seen kept
mapping of the path (spec-side definition). -/
def firstSeenBase (raw : List Char) (path : List Char) : Option Nat :=
  (((readProcMaps raw).filter fun e => e.path == path).head?).map fun e => e.start - e.offset

/-- C9 counterexample: with two executable mappings of /a, the first-seen
rule gives base 0x1000 = 4096, but the code keeps the smallest
start - offset over all mappings of the path and returns 0xf00 = 3840. -/
theorem runtimeModules_cx :
    runtimeModules mapsCxText = [⟨['/', 'a'], 3840, -1⟩] ∧
    firstSeenBase mapsCxText ['/', 'a'] = some 4096 ∧ (3840 : Nat) ≠ 4096 :=
  ⟨rfl, rfl, by decide⟩

/-- C9 (amended): as a function of the maps text, the introspector
returns one record per kept path (a parsed line is kept when it has at
least five fields, an executable permission set, parseable hex start and
offset, an absolute path, and start at least offset), whose load base is
the smallest start - offset over that path's kept mappings, whose score
is libcPathScore of the path, ordered by score descending and then path
ascending, with no path repeated. -/
theorem runtimeModules_spec (raw : List Char) :
    ((runtimeModules raw).Pairwise fun a b =>
      b.score < a.score ∨ (a.score = b.score ∧ pathLt a.path b.path = true)) ∧
    (∀ m ∈ runtimeModules raw, m.score = libcPathScore m.path ∧
      minFold Option.none (keptBases (readProcMaps raw) m.path) = some m.base ∧
      m.base ∈ keptBases (readProcMaps raw) m.path ∧
      ∀ c ∈ keptBases (readProcMaps raw) m.path, m.base ≤ c) ∧
    (∀ path, (∃ m ∈ runtimeModules raw, m.path = path) ↔
      minFold Option.none (keptBases (readProcMaps raw) path) ≠ Option.none) ∧
    ((runtimeModules raw).map fun m => m.path).Nodup := by
  have hnodup : ((byPathFold (readProcMaps raw) []).map Prod.fst).Nodup :=
    byPathFold_nodupKeys (readProcMaps raw) [] (by simp)
  have hlk : ∀ path, (byPathFold (readProcMaps raw) []).lookup path =
      minFold Option.none (keptBases (readProcMaps raw) path) :=
    fun path => byPathFold_lookup (readProcMaps raw) [] path
  have hperm := moduleSort_perm ((byPathFold (readProcMaps raw) []).map
    fun kv => (⟨kv.1, kv.2, libcPathScore kv.1⟩ : RuntimeModule))
  have hmemiff : ∀ m : RuntimeModule, m ∈ runtimeModules raw ↔
      m ∈ (byPathFold (readProcMaps raw) []).map
        (fun kv => (⟨kv.1, kv.2, libcPathScore kv.1⟩ : RuntimeModule)) :=
    fun m => hperm.mem_iff
  have hprops : ∀ m ∈ runtimeModules raw, m.score = libcPathScore m.path ∧
      minFold Option.none (keptBases (readProcMaps raw) m.path) = some m.base := by
    intro m hm
    obtain ⟨kv, hkv, hkveq⟩ := List.mem_map.mp ((hmemiff m).mp hm)
    subst hkveq
    refine ⟨rfl, ?_⟩
    rw [← hlk]
    exact mem_lookup_of_nodupKeys _ hnodup kv.1 kv.2 hkv
  have hrm : runtimeModules raw = moduleSort ((byPathFold (readProcMaps raw) []).map
      fun kv => (⟨kv.1, kv.2, libcPathScore kv.1⟩ : RuntimeModule)) := rfl
  have hnodupPaths : ((runtimeModules raw).map fun m => m.path).Nodup := by
    have hp2 := hperm.map fun m => m.path
    rw [hrm, List.Perm.nodup_iff hp2]
    rw [List.map_map]
    have : ((fun m : RuntimeModule => m.path) ∘
        fun kv : List Char × Nat => (⟨kv.1, kv.2, libcPathScore kv.1⟩ : RuntimeModule)) =
        Prod.fst := by
      funext kv
      rfl
    rw [this]
    exact hnodup
  refine ⟨?_, ?_, ?_, hnodupPaths⟩
  · have hpw := moduleSort_pairwise ((byPathFold (readProcMaps raw) []).map
      fun kv => (⟨kv.1, kv.2, libcPathScore kv.1⟩ : RuntimeModule))
    have hpne : (runtimeModules raw).Pairwise fun a b => a.path ≠ b.path := by
      have := hnodupPaths
      rw [List.nodup_iff_sublist] at this
      rw [← List.pairwise_map]
      exact List.Pairwise.imp (fun h => h) hnodupPaths
    have hand := List.Pairwise.and hpw hpne
    refine hand.imp ?_
    intro a b hab
    obtain ⟨hle, hne⟩ := hab
    unfold ModLe moduleLess at hle
    by_cases hs : b.score = a.score
    · rw [if_neg (by omega)] at hle
      right
      refine ⟨hs.symm, ?_⟩
      by_cases hp : pathLt a.path b.path = true
      · exact hp
      · exact absurd (pathLt_total a.path b.path (Bool.eq_false_iff.mpr hp) hle) hne
    · rw [if_pos (by omega)] at hle
      simp only [decide_eq_false_iff_not] at hle
      left
      omega
  · intro m hm
    obtain ⟨hscore, hmin⟩ := hprops m hm
    obtain ⟨hle, -, hmem⟩ := minFold_le _ _ _ hmin
    rcases hmem with hmem | hmem
    · exact ⟨hscore, hmin, hmem, hle⟩
    · cases hmem
  · intro path
    constructor
    · intro ⟨m, hm, hpath⟩
      subst hpath
      obtain ⟨-, hmin⟩ := hprops m hm
      rw [hmin]
      intro hc
      cases hc
    · intro hne
      cases hl : minFold Option.none (keptBases (readProcMaps raw) path) with
      | none => exact absurd hl hne
      | some b =>
        have hlook : (byPathFold (readProcMaps raw) []).lookup path = some b := by
          rw [hlk, hl]
        have hmem := lookup_some_mem _ path b hlook
        refine ⟨⟨path, b, libcPathScore path⟩, ?_, rfl⟩
        rw [hmemiff]
        exact List.mem_map.mpr ⟨(path, b), hmem, rfl⟩

/-- Sequencing an ok result is application of the continuation. -/
theorem goBind_ok {α β : Type} (a : α) (f : α → GoRes β) :
    (Bind.bind (GoRes.ok a) f : GoRes β) = f a := rfl

/-- Sequencing a failed result stays failed. -/
theorem goBind_failed {α β : Type} (f : α → GoRes β) :
    (Bind.bind (GoRes.failed : GoRes α) f : GoRes β) = GoRes.failed := rfl

/-- Dropping past an index just written leaves the list unchanged. -/
theorem drop_set_of_lt {α : Type} (l : List α) (i : Nat) (a : α) (k : Nat) (h : i < k) :
    (l.set i a).drop k = l.drop k := by
  apply List.ext_getElem?
  intro n
  rw [List.getElem?_drop, List.getElem?_drop, List.getElem?_set_ne (by omega)]

/-- Lists that agree from position k on agree from any later position on. -/
theorem drop_agree_mono {α : Type} {l1 l2 : List α} {k k' : Nat}
    (h : l1.drop k = l2.drop k) (hk : k ≤ k') : l1.drop k' = l2.drop k' := by
  have h2 : (l1.drop k).drop (k' - k) = (l2.drop k).drop (k' - k) := by rw [h]
  rw [List.drop_drop, List.drop_drop] at h2
  have hke : k + (k' - k) = k' := by omega
  rwa [hke] at h2

/-- getbit never panics nor runs out of fuel: it fails on a truncated
source, else consumes exactly one bit of the stream, keeps the source
cursor in range, and leaves the destination untouched. -/
theorem getbit_spec (src : List Nat) (st : Apds) (h : st.srcPos ≤ src.length) :
    getbit src st = .failed ∨
    ∃ b st', getbit src st = .ok (b, st') ∧
      bitsRem src st' + 1 = bitsRem src st ∧ st'.srcPos ≤ src.length ∧
      st'.dstPos = st.dstPos ∧ st'.dst = st.dst := by
  by_cases h0 : st.bitcount = 0
  · by_cases h1 : st.srcPos < src.length
    · right
      refine ⟨(src.getD st.srcPos 0 >>> 7) &&& 1,
        ⟨st.srcPos + 1, st.dstPos, (src.getD st.srcPos 0 <<< 1) % U32, 7, st.dst⟩,
        ?_, ?_, ?_, rfl, rfl⟩
      · rw [getbit, if_pos h0, if_pos h1]
        rfl
      · simp only [bitsRem]
        omega
      · dsimp only
        omega
    · left
      rw [getbit, if_pos h0, if_neg h1]
  · right
    refine ⟨(st.tag >>> 7) &&& 1,
      ⟨st.srcPos, st.dstPos, (st.tag <<< 1) % U32, st.bitcount - 1, st.dst⟩,
      ?_, ?_, h, rfl, rfl⟩
    · rw [getbit, if_neg h0]
      rfl
    · simp only [bitsRem]
      omega

/-- The gamma loop with fuel above the remaining bit budget never panics
nor runs out of fuel: it either fails or consumes at least two bits,
keeping the source cursor in range and the destination untouched. -/
theorem getgammaAux_spec (src : List Nat) : ∀ fuel v st, st.srcPos ≤ src.length →
    bitsRem src st < fuel →
    getgammaAux src fuel v st = .failed ∨
    ∃ g st', getgammaAux src fuel v st = .ok (g, st') ∧
      bitsRem src st' + 2 ≤ bitsRem src st ∧ st'.srcPos ≤ src.length ∧
      st'.dstPos = st.dstPos ∧ st'.dst = st.dst := by
  intro fuel
  induction fuel with
  | zero => intro v st hs hf; exact absurd hf (by omega)
  | succ fuel ih =>
    intro v st hs hf
    rcases getbit_spec src st hs with hgb | ⟨b, st1, hgb, hb1, hs1, hd1, hl1⟩
    · left
      rw [getgammaAux, hgb, goBind_failed]
    · rw [getgammaAux, hgb, goBind_ok]
      dsimp only
      by_cases hv : v &&& 0x80000000 ≠ 0
      · left
        rw [if_pos hv]
      · rw [if_neg hv]
        rcases getbit_spec src st1 hs1 with hgb2 | ⟨b2, st2, hgb2, hb2, hs2, hd2, hl2⟩
        · left
          rw [hgb2, goBind_failed]
        · rw [hgb2, goBind_ok]
          dsimp only
          by_cases hz : b2 = 0
          · right
            rw [if_pos hz]
            exact ⟨(v <<< 1) + b, st2, rfl, by omega, hs2, hd2.trans hd1, hl2.trans hl1⟩
          · rw [if_neg hz]
            rcases ih ((v <<< 1) + b) st2 hs2 (by omega) with hr | ⟨g, st3, hr, hb3, hs3, hd3, hl3⟩
            · exact Or.inl hr
            · exact Or.inr ⟨g, st3, hr, by omega, hs3,
                hd3.trans (hd2.trans hd1), hl3.trans (hl2.trans hl1)⟩

/-- getgamma never panics nor runs out of fuel (its fuel is seeded above
the remaining bit budget): it fails or consumes at least two bits. -/
theorem getgamma_spec (src : List Nat) (st : Apds) (h : st.srcPos ≤ src.length) :
    getgamma src st = .failed ∨
    ∃ g st', getgamma src st = .ok (g, st') ∧
      bitsRem src st' + 2 ≤ bitsRem src st ∧ st'.srcPos ≤ src.length ∧
      st'.dstPos = st.dstPos ∧ st'.dst = st.dst :=
  getgammaAux_spec src (bitsRem src st + 1) 1 st h (by omega)

/-- The fixed-width bit accumulator fails on a truncated source or
consumes exactly n bits, leaving the destination untouched. -/
theorem readBitsAcc_spec (src : List Nat) : ∀ n acc st, st.srcPos ≤ src.length →
    readBitsAcc src n acc st = .failed ∨
    ∃ w st', readBitsAcc src n acc st = .ok (w, st') ∧
      bitsRem src st' + n = bitsRem src st ∧ st'.srcPos ≤ src.length ∧
      st'.dstPos = st.dstPos ∧ st'.dst = st.dst := by
  intro n
  induction n with
  | zero =>
    intro acc st hs
    exact Or.inr ⟨acc, st, rfl, rfl, hs, rfl, rfl⟩
  | succ n ih =>
    intro acc st hs
    rcases getbit_spec src st hs with hgb | ⟨b, st1, hgb, hb1, hs1, hd1, hl1⟩
    · left
      rw [readBitsAcc, hgb, goBind_failed]
    · rw [readBitsAcc, hgb, goBind_ok]
      dsimp only
      rcases ih ((acc <<< 1) + b) st1 hs1 with hr | ⟨w, st2, hr, hb2, hs2, hd2, hl2⟩
      · exact Or.inl hr
      · exact Or.inr ⟨w, st2, hr, by omega, hs2, hd2.trans hd1, hl2.trans hl1⟩

/-- The backward-reference copy loop, run with the offset at most the
write position and the write range inside the destination, never fails
nor panics: it advances the write position by the length, preserves the
destination length, the bit cursor, and every byte at or beyond the end
of the write range. -/
theorem copyFromBack_spec (offs : Nat) : ∀ len st, offs ≤ st.dstPos →
    st.dstPos + len ≤ st.dst.length →
    ∃ st', copyFromBack offs len st = .ok st' ∧
      st'.dstPos = st.dstPos + len ∧ st'.dst.length = st.dst.length ∧
      st'.srcPos = st.srcPos ∧ st'.bitcount = st.bitcount ∧
      st'.dst.drop (st.dstPos + len) = st.dst.drop (st.dstPos + len) := by
  intro len
  induction len with
  | zero =>
    intro st ho hb
    exact ⟨st, rfl, rfl, rfl, rfl, rfl, rfl⟩
  | succ len ih =>
    intro st ho hb
    have hrd : readDstBack st offs = .ok (st.dst.getD (st.dstPos - offs) 0) := by
      rw [readDstBack, if_pos ⟨ho, by omega⟩]
    have hwd : writeDst st st.dstPos (st.dst.getD (st.dstPos - offs) 0) =
        .ok { st with dst := st.dst.set st.dstPos (st.dst.getD (st.dstPos - offs) 0) } := by
      rw [writeDst, if_pos (by omega)]
    rw [copyFromBack, hrd, goBind_ok, hwd, goBind_ok]
    dsimp only
    rcases ih ⟨st.srcPos, st.dstPos + 1, st.tag, st.bitcount,
        st.dst.set st.dstPos (st.dst.getD (st.dstPos - offs) 0)⟩
        (by show offs ≤ st.dstPos + 1; omega)
        (by show st.dstPos + 1 + len ≤ (st.dst.set st.dstPos (st.dst.getD (st.dstPos - offs) 0)).length
            simp only [List.length_set]; omega) with
      ⟨st', hr, hp, hl, hsp, hbc, hdr⟩
    refine ⟨st', hr, ?_, ?_, hsp, hbc, ?_⟩
    · dsimp only at hp
      omega
    · rw [hl]
      simp only [List.length_set]
    · dsimp only at hdr
      have hidx : st.dstPos + (len + 1) = st.dstPos + 1 + len := by omega
      rw [hidx, hdr, drop_set_of_lt _ _ _ _ (by omega)]

/-- Chaining a recursive call of the decode loop: invariants relative to
an iteration's input state compose with the loop invariants relative to
the loop entry state. -/
theorem apChain (src : List Nat) (fuel R0 LWM : Nat) (st0 st1 : Apds)
    (ih : ∀ R0 LWM st, st.srcPos ≤ src.length → st.dstPos ≤ st.dst.length →
      bitsRem src st < fuel →
      apLoop src fuel R0 LWM st = .failed ∨
      ∃ st', apLoop src fuel R0 LWM st = .ok st' ∧ st'.dstPos ≤ st'.dst.length ∧
        st'.dst.length = st.dst.length ∧ st.dstPos ≤ st'.dstPos ∧
        st'.dst.drop st'.dstPos = st.dst.drop st'.dstPos)
    (h1 : st1.srcPos ≤ src.length) (h2 : st1.dstPos ≤ st1.dst.length)
    (h3 : bitsRem src st1 < fuel)
    (hlen : st1.dst.length = st0.dst.length) (hpos : st0.dstPos ≤ st1.dstPos)
    (hdrop : st1.dst.drop st1.dstPos = st0.dst.drop st1.dstPos) :
    apLoop src fuel R0 LWM st1 = .failed ∨
    ∃ st', apLoop src fuel R0 LWM st1 = .ok st' ∧ st'.dstPos ≤ st'.dst.length ∧
      st'.dst.length = st0.dst.length ∧ st0.dstPos ≤ st'.dstPos ∧
      st'.dst.drop st'.dstPos = st0.dst.drop st'.dstPos := by
  rcases ih R0 LWM st1 h1 h2 h3 with h | ⟨st', ha, hb, hc, hd, he⟩
  · exact Or.inl h
  · exact Or.inr ⟨st', ha, hb, hc.trans hlen, hpos.trans hd,
      he.trans (drop_agree_mono hdrop hd)⟩

/-- The decode loop with fuel above the remaining bit budget never panics
nor runs out of fuel: it fails or returns a final cursor whose write
position stays inside a destination of unchanged length, never moves
backwards, and every destination byte at or beyond the final write
position is untouched. -/
theorem apLoop_spec (src : List Nat) : ∀ fuel R0 LWM st, st.srcPos ≤ src.length →
    st.dstPos ≤ st.dst.length → bitsRem src st < fuel →
    apLoop src fuel R0 LWM st = .failed ∨
    ∃ st', apLoop src fuel R0 LWM st = .ok st' ∧ st'.dstPos ≤ st'.dst.length ∧
      st'.dst.length = st.dst.length ∧ st.dstPos ≤ st'.dstPos ∧
      st'.dst.drop st'.dstPos = st.dst.drop st'.dstPos := by
  intro fuel
  induction fuel with
  | zero => intro R0 LWM st hs hd hf; exact absurd hf (by omega)
  | succ fuel ih =>
    intro R0 LWM st hs hd hf
    rcases getbit_spec src st hs with hgb | ⟨b, st1, hgb, hb1, hs1, hd1, hl1⟩
    · left
      rw [apLoop, hgb, goBind_failed]
    · rw [apLoop, hgb, goBind_ok]
      dsimp only
      by_cases hbit : b = 1
      · rw [if_pos hbit]
        rcases getbit_spec src st1 hs1 with hgb2 | ⟨b2, st2, hgb2, hb2, hd2, hp2, hl2⟩
        · left
          rw [hgb2, goBind_failed]
        · rw [hgb2, goBind_ok]
          dsimp only
          by_cases hbit2 : b2 = 1
          · rw [if_pos hbit2]
            rcases getbit_spec src st2 hd2 with hgb3 | ⟨b3, st3, hgb3, hb3, hd3, hp3, hl3⟩
            · left
              rw [hgb3, goBind_failed]
            · rw [hgb3, goBind_ok]
              dsimp only
              by_cases hbit3 : b3 = 1
              · rw [if_pos hbit3]
                rcases readBitsAcc_spec src 4 0 st3 hd3 with hrb | ⟨w, st4, hrb, hb4, hd4, hp4, hl4⟩
                · left
                  rw [hrb, goBind_failed]
                · rw [hrb, goBind_ok]
                  dsimp only
                  by_cases hw : w ≠ 0
                  · rw [if_pos hw]
                    by_cases hguard : st4.dstPos < w ∨ st4.dst.length ≤ st4.dstPos
                    · left
                      rw [if_pos hguard]
                    · rw [if_neg hguard]
                      push_neg at hguard
                      have hrd : readDstBack st4 w = .ok (st4.dst.getD (st4.dstPos - w) 0) := by
                        rw [readDstBack, if_pos ⟨hguard.1, by omega⟩]
                      have hwd : writeDst st4 st4.dstPos (st4.dst.getD (st4.dstPos - w) 0) =
                          .ok { st4 with dst := st4.dst.set st4.dstPos (st4.dst.getD (st4.dstPos - w) 0) } := by
                        rw [writeDst, if_pos hguard.2]
                      rw [hrd, goBind_ok, hwd, goBind_ok]
                      dsimp only
                      refine apChain src fuel R0 0 st _ ih ?_ ?_ ?_ ?_ ?_ ?_
                      · show st4.srcPos ≤ src.length
                        exact hd4
                      · show st4.dstPos + 1 ≤ (st4.dst.set st4.dstPos _).length
                        simp only [List.length_set]
                        omega
                      · show 8 * (src.length - st4.srcPos) + st4.bitcount < fuel
                        simp only [bitsRem] at hb1 hb2 hb3 hb4 hf
                        omega
                      · show (st4.dst.set st4.dstPos _).length = st.dst.length
                        simp only [List.length_set]
                        rw [hl4, hl3, hl2, hl1]
                      · show st.dstPos ≤ st4.dstPos + 1
                        omega
                      · show (st4.dst.set st4.dstPos _).drop (st4.dstPos + 1) =
                          st.dst.drop (st4.dstPos + 1)
                        rw [drop_set_of_lt _ _ _ _ (by omega), hl4, hl3, hl2, hl1]
                  · rw [if_neg hw]
                    by_cases hguard : st4.dst.length ≤ st4.dstPos
                    · left
                      rw [if_pos hguard]
                    · rw [if_neg hguard]
                      push_neg at hguard
                      have hwd : writeDst st4 st4.dstPos 0 =
                          .ok { st4 with dst := st4.dst.set st4.dstPos 0 } := by
                        rw [writeDst, if_pos hguard]
                      rw [hwd, goBind_ok]
                      dsimp only
                      refine apChain src fuel R0 0 st _ ih ?_ ?_ ?_ ?_ ?_ ?_
                      · show st4.srcPos ≤ src.length
                        exact hd4
                      · show st4.dstPos + 1 ≤ (st4.dst.set st4.dstPos 0).length
                        simp only [List.length_set]
                        omega
                      · show 8 * (src.length - st4.srcPos) + st4.bitcount < fuel
                        simp only [bitsRem] at hb1 hb2 hb3 hb4 hf
                        omega
                      · show (st4.dst.set st4.dstPos 0).length = st.dst.length
                        simp only [List.length_set]
                        rw [hl4, hl3, hl2, hl1]
                      · show st.dstPos ≤ st4.dstPos + 1
                        omega
                      · show (st4.dst.set st4.dstPos 0).drop (st4.dstPos + 1) =
                          st.dst.drop (st4.dstPos + 1)
                        rw [drop_set_of_lt _ _ _ _ (by omega), hl4, hl3, hl2, hl1]
              · rw [if_neg hbit3]
                by_cases hsg : src.length ≤ st3.srcPos
                · left
                  rw [if_pos hsg]
                · rw [if_neg hsg]
                  have hrs : readSrc src st3.srcPos = .ok (src.getD st3.srcPos 0) := by
                    rw [readSrc, if_pos (by omega)]
                  rw [hrs, goBind_ok]
                  have hdp3 : st3.dstPos ≤ st3.dst.length := by
                    rw [hp3, hp2, hd1, hl3, hl2, hl1]
                    exact hd
                  by_cases hbz : src.getD st3.srcPos 0 >>> 1 ≠ 0
                  · rw [if_pos hbz]
                    by_cases hguard : st3.dstPos < src.getD st3.srcPos 0 >>> 1 ∨
                        st3.dst.length - st3.dstPos < 2 + (src.getD st3.srcPos 0 &&& 1)
                    · left
                      rw [if_pos hguard]
                    · rw [if_neg hguard]
                      push_neg at hguard
                      obtain ⟨st5, hcp, hq5, hl5, hsp5, hbc5, hdr5⟩ :=
                        copyFromBack_spec (src.getD st3.srcPos 0 >>> 1)
                          (2 + (src.getD st3.srcPos 0 &&& 1))
                          ⟨st3.srcPos + 1, st3.dstPos, st3.tag, st3.bitcount, st3.dst⟩
                          (show src.getD st3.srcPos 0 >>> 1 ≤ st3.dstPos from hguard.1)
                          (show st3.dstPos + (2 + (src.getD st3.srcPos 0 &&& 1)) ≤
                            st3.dst.length by omega)
                      rw [hcp, goBind_ok]
                      have e1 : st5.srcPos = st3.srcPos + 1 := hsp5
                      have e2 : st5.bitcount = st3.bitcount := hbc5
                      have e3 : st5.dstPos = st3.dstPos + (2 + (src.getD st3.srcPos 0 &&& 1)) := hq5
                      have e4 : st5.dst.length = st3.dst.length := hl5
                      have e5 : st5.dst.drop (st3.dstPos + (2 + (src.getD st3.srcPos 0 &&& 1))) =
                          st3.dst.drop (st3.dstPos + (2 + (src.getD st3.srcPos 0 &&& 1))) := hdr5
                      refine apChain src fuel _ 1 st _ ih ?_ ?_ ?_ ?_ ?_ ?_
                      · rw [e1]
                        omega
                      · rw [e3, e4]
                        omega
                      · simp only [bitsRem]
                        rw [e1, e2]
                        simp only [bitsRem] at hb1 hb2 hb3 hf
                        omega
                      · rw [e4, hl3, hl2, hl1]
                      · rw [e3]
                        omega
                      · rw [e3, e5, hl3, hl2, hl1]
                  · rw [if_neg hbz]
                    right
                    refine ⟨_, rfl, ?_, ?_, ?_, ?_⟩
                    · show st3.dstPos ≤ st3.dst.length
                      exact hdp3
                    · show st3.dst.length = st.dst.length
                      rw [hl3, hl2, hl1]
                    · show st.dstPos ≤ st3.dstPos
                      omega
                    · show st3.dst.drop st3.dstPos = st.dst.drop st3.dstPos
                      rw [hl3, hl2, hl1]
          · rw [if_neg hbit2]
            rcases getgamma_spec src st2 hd2 with hgg | ⟨g, stg, hgg, hbg, hsA, hpA, hlA⟩
            · left
              rw [hgg, goBind_failed]
            · rw [hgg, goBind_ok]
              dsimp only
              by_cases hlwm : LWM = 0 ∧ g = 2
              · rw [if_pos hlwm]
                rcases getgamma_spec src stg hsA with hgg2 | ⟨g2, stg2, hgg2, hbg2, hsB, hpB, hlB⟩
                · left
                  rw [hgg2, goBind_failed]
                · rw [hgg2, goBind_ok]
                  dsimp only
                  by_cases hguard : stg2.dstPos < R0 ∨ stg2.dst.length - stg2.dstPos < g2
                  · left
                    rw [if_pos hguard]
                  · rw [if_neg hguard]
                    push_neg at hguard
                    have hdpg : stg2.dstPos ≤ stg2.dst.length := by
                      rw [hpB, hpA, hp2, hd1, hlB, hlA, hl2, hl1]
                      exact hd
                    obtain ⟨st5, hcp, hq5, hl5, hsp5, hbc5, hdr5⟩ :=
                      copyFromBack_spec R0 g2 stg2 hguard.1 (by omega)
                    rw [hcp, goBind_ok]
                    refine apChain src fuel R0 1 st _ ih ?_ ?_ ?_ ?_ ?_ ?_
                    · rw [hsp5]
                      exact hsB
                    · rw [hq5, hl5]
                      omega
                    · simp only [bitsRem]
                      rw [hsp5, hbc5]
                      simp only [bitsRem] at hb1 hb2 hbg hbg2 hf
                      omega
                    · rw [hl5, hlB, hlA, hl2, hl1]
                    · rw [hq5]
                      omega
                    · rw [hq5, hdr5, hlB, hlA, hl2, hl1]
              · rw [if_neg hlwm]
                by_cases hov : 0x00fffffe < gammaSub LWM g
                · left
                  rw [if_pos hov]
                · rw [if_neg hov]
                  by_cases hsgB : src.length ≤ stg.srcPos
                  · left
                    rw [if_pos hsgB]
                  · rw [if_neg hsgB]
                    have hrs : readSrc src stg.srcPos = .ok (src.getD stg.srcPos 0) := by
                      rw [readSrc, if_pos (by omega)]
                    rw [hrs, goBind_ok]
                    rcases getgamma_spec src
                        ⟨stg.srcPos + 1, stg.dstPos, stg.tag, stg.bitcount, stg.dst⟩
                        (show stg.srcPos + 1 ≤ src.length by omega) with
                      hgg2 | ⟨g2, stg2, hgg2, hbg2, hsB, hpB, hlB⟩
                    · left
                      rw [hgg2, goBind_failed]
                    · rw [hgg2, goBind_ok]
                      dsimp only
                      by_cases hguard : stg2.dstPos <
                            (gammaSub LWM g <<< 8) + src.getD stg.srcPos 0 ∨
                          stg2.dst.length - stg2.dstPos <
                            lenAdjust ((gammaSub LWM g <<< 8) + src.getD stg.srcPos 0) g2
                      · left
                        rw [if_pos hguard]
                      · rw [if_neg hguard]
                        push_neg at hguard
                        have e0 : stg2.dstPos = stg.dstPos := hpB
                        have e0l : stg2.dst = stg.dst := hlB
                        have hbB : bitsRem src stg2 + 2 ≤
                            8 * (src.length - (stg.srcPos + 1)) + stg.bitcount := hbg2
                        have hdpg : stg2.dstPos ≤ stg2.dst.length := by
                          rw [e0, e0l, hpA, hp2, hd1, hlA, hl2, hl1]
                          exact hd
                        obtain ⟨st5, hcp, hq5, hl5, hsp5, hbc5, hdr5⟩ :=
                          copyFromBack_spec ((gammaSub LWM g <<< 8) + src.getD stg.srcPos 0)
                            (lenAdjust ((gammaSub LWM g <<< 8) + src.getD stg.srcPos 0) g2)
                            stg2 hguard.1 (by omega)
                        rw [hcp, goBind_ok]
                        refine apChain src fuel _ 1 st _ ih ?_ ?_ ?_ ?_ ?_ ?_
                        · rw [hsp5]
                          exact hsB
                        · rw [hq5, hl5]
                          omega
                        · simp only [bitsRem]
                          rw [hsp5, hbc5]
                          simp only [bitsRem] at hb1 hb2 hbg hf hbB
                          omega
                        · rw [hl5, e0l, hlA, hl2, hl1]
                        · rw [hq5]
                          omega
                        · rw [hq5, hdr5, e0l, hlA, hl2, hl1]
      · rw [if_neg hbit]
        by_cases hguard : src.length ≤ st1.srcPos ∨ st1.dst.length ≤ st1.dstPos
        · left
          rw [if_pos hguard]
        · rw [if_neg hguard]
          push_neg at hguard
          have hrs : readSrc src st1.srcPos = .ok (src.getD st1.srcPos 0) := by
            rw [readSrc, if_pos hguard.1]
          rw [hrs, goBind_ok]
          have hwd : writeDst ⟨st1.srcPos + 1, st1.dstPos, st1.tag, st1.bitcount, st1.dst⟩
              st1.dstPos (src.getD st1.srcPos 0) =
              .ok ⟨st1.srcPos + 1, st1.dstPos, st1.tag, st1.bitcount,
                st1.dst.set st1.dstPos (src.getD st1.srcPos 0)⟩ := by
            rw [writeDst, if_pos (show st1.dstPos <
              (⟨st1.srcPos + 1, st1.dstPos, st1.tag, st1.bitcount, st1.dst⟩ : Apds).dst.length
              from hguard.2)]
          rw [hwd, goBind_ok]
          dsimp only
          refine apChain src fuel R0 0 st _ ih ?_ ?_ ?_ ?_ ?_ ?_
          · show st1.srcPos + 1 ≤ src.length
            omega
          · show st1.dstPos + 1 ≤ (st1.dst.set st1.dstPos _).length
            simp only [List.length_set]
            omega
          · show 8 * (src.length - (st1.srcPos + 1)) + st1.bitcount < fuel
            simp only [bitsRem] at hb1 hf
            omega
          · show (st1.dst.set st1.dstPos _).length = st.dst.length
            simp only [List.length_set]
            rw [hl1]
          · show st.dstPos ≤ st1.dstPos + 1
            omega
          · show (st1.dst.set st1.dstPos _).drop (st1.dstPos + 1) =
              st.dst.drop (st1.dstPos + 1)
            rw [drop_set_of_lt _ _ _ _ (by omega), hl1]

/-- C10: apDepackSafe is total and memory-safe: for every source and
destination, the checked evaluation never panics (no out-of-bounds read
or write) and never exhausts its fuel (termination), so it produces a
result; apDepackSafe returns that result; on failure the result is
(0, false) with the destination untouched; on success the returned
length is the number of bytes written: it is bounded by the destination
length, the destination length is unchanged, and every destination byte
at or beyond the returned length is untouched. -/
theorem apDepackSafe_spec (src dst : List Nat) :
    ∃ n ok out, apDepackRun src dst = .ok (n, ok, out) ∧
      apDepackSafe src dst = (n, ok, out) ∧
      (ok = false → n = 0 ∧ out = dst) ∧
      (ok = true → n ≤ out.length ∧ out.length = dst.length ∧
        out.drop n = dst.drop n) := by
  by_cases h0 : src.length = 0 ∨ dst.length = 0
  · have hrun : apDepackRun src dst = .ok (0, false, dst) := by
      rw [apDepackRun, if_pos h0]
    refine ⟨0, false, dst, hrun, ?_, fun _ => ⟨rfl, rfl⟩, fun hc => by cases hc⟩
    rw [apDepackSafe, hrun]
  · rw [not_or] at h0
    have h1 : ¬ (src.length ≤ 0 ∨ dst.length ≤ 0) := by omega
    have hrs : readSrc src 0 = .ok (src.getD 0 0) := by
      rw [readSrc, if_pos (by omega)]
    have hwd : writeDst ⟨0, 0, 0, 0, dst⟩ 0 (src.getD 0 0) =
        .ok ⟨0, 0, 0, 0, dst.set 0 (src.getD 0 0)⟩ := by
      rw [writeDst, if_pos (show (0 : Nat) < (⟨0, 0, 0, 0, dst⟩ : Apds).dst.length by
        show 0 < dst.length
        omega)]
    rcases apLoop_spec src (8 * src.length + 1) 0xffffffff 0
        ⟨1, 1, 0, 0, dst.set 0 (src.getD 0 0)⟩
        (by show 1 ≤ src.length; omega)
        (by show 1 ≤ (dst.set 0 (src.getD 0 0)).length
            simp only [List.length_set]
            omega)
        (by simp only [bitsRem]
            omega) with
      hlp | ⟨st', hlp, hinv, hlen, hpos, hdrop⟩
    · have hrun : apDepackRun src dst = .ok (0, false, dst) := by
        rw [apDepackRun, if_neg (by omega), if_neg h1, hrs, goBind_ok, hwd, goBind_ok, hlp]
      refine ⟨0, false, dst, hrun, ?_, fun _ => ⟨rfl, rfl⟩, fun hc => by cases hc⟩
      rw [apDepackSafe, hrun]
    · have hrun : apDepackRun src dst = .ok (st'.dstPos, true, st'.dst) := by
        rw [apDepackRun, if_neg (by omega), if_neg h1, hrs, goBind_ok, hwd, goBind_ok, hlp]
      refine ⟨st'.dstPos, true, st'.dst, hrun, ?_, fun hc => absurd hc (by decide), ?_⟩
      · rw [apDepackSafe, hrun]
      refine fun _ => ⟨hinv, ?_, ?_⟩
      · rw [hlen]
        simp only [List.length_set]
      · have hd1 : st'.dst.drop st'.dstPos =
            (dst.set 0 (src.getD 0 0)).drop st'.dstPos := hdrop
        rw [hd1, drop_set_of_lt _ _ _ _ (show 0 < st'.dstPos by
          have : (1 : Nat) ≤ st'.dstPos := hpos
          omega)]

end Reflektor
